import Mathlib

/-!
Verification of the rmace chess engine core against its specification.

This file gives a shallow embedding, in Lean 4, of the parts of the engine
that the checked properties are about: board geometry (`src/position/locus.rs`),
bitboards (`src/position/bitboard.rs`), pieces (`src/piece.rs`), castling
rights (`src/position/castling_rights.rs`), Zobrist hashing
(`src/position/zobrist.rs`), the position with its make/undo protocol
(`src/position.rs`), the position builder (`src/position/builder.rs`),
ray-walk and magic sliding-attack tables (`src/position/movegen/rays.rs`,
`src/position/movegen/magics.rs`), pawn and king move generation
(`src/position/movegen/pawn.rs`, `src/position/movegen/king.rs`), the
transposition-table probe and quiescence control flow (`src/search.rs`,
`src/search/ttable.rs`), and iteration time management (`src/search/time.rs`).

Machine integers are embedded as `Nat` with explicit wrap-around (`% 2 ^ 64`)
where the source relies on it; `u64` bitboards are `Nat`s kept below `2 ^ 64`.
A square (`Locus`) is its index `0..63` (index = rank * 8 + file, file a = 0,
rank 1 = 0), exactly as in the source.  Fallible operations (`Option::unwrap`,
`ArrayVec::push` at capacity, `Duration` subtraction underflow) are embedded
as `Option`-returning functions.
-/

set_option maxRecDepth 8000
set_option exponentiation.threshold 10000

namespace Rmace

/-! ## Board geometry (`src/position/locus.rs`) -/

/-- `Locus::north`: `pos + 8`, `None` past rank 8. -/
def locNorth (l : Nat) : Option Nat :=
  if l + 8 ≥ 64 then none else some (l + 8)

/-- `Locus::south`: `pos - 8`, `None` past rank 1. -/
def locSouth (l : Nat) : Option Nat :=
  if l < 8 then none else some (l - 8)

/-- `Locus::east`: `pos + 1`, `None` on file h (`pos % 8 = 7`). -/
def locEast (l : Nat) : Option Nat :=
  if l % 8 = 7 then none else some (l + 1)

/-- `Locus::west`: `pos - 1`, `None` on file a (`pos % 8 = 0`). -/
def locWest (l : Nat) : Option Nat :=
  if l % 8 = 0 then none else some (l - 1)

/-- `Locus::to_rank_file`: rank component (`pos / 8`). -/
def locRank (l : Nat) : Nat := l / 8

/-- `Locus::to_rank_file`: file component (`pos % 8`). -/
def locFile (l : Nat) : Nat := l % 8

/-! ## Bitboards (`src/position/bitboard.rs`)

A bitboard is a `u64`, embedded as a `Nat` below `2 ^ 64`; bit `i` set means
square `i` is occupied. -/

/-- All 64 bits set (`u64::MAX`). -/
def u64Mask : Nat := 2 ^ 64 - 1

/-- Rust `!bb` on a `u64`: 64-bit complement. -/
def bbNot (b : Nat) : Nat := u64Mask ^^^ b

/-- `Locus::to_bitboard`: `1 << pos`. -/
def locToBitboard (l : Nat) : Nat := 1 <<< l

/-- `BitBoard::set_piece_at`. -/
def bbSet (b l : Nat) : Nat := b ||| locToBitboard l

/-- `BitBoard::clear_piece_at`: `inner & !(loc.to_bitboard())`. -/
def bbClear (b l : Nat) : Nat := b &&& bbNot (locToBitboard l)

/-- `BitBoard::has_piece_at`: `inner & 1 << loc.to_idx() != 0`. -/
def bbHas (b l : Nat) : Bool := b &&& (1 <<< l) != 0

/-- One halving step used to compute `u64::trailing_zeros`: if the low `w`
bits are all zero, skip them. -/
def tzStep (w b : Nat) : Nat × Nat :=
  if b % 2 ^ w = 0 then (w, b / 2 ^ w) else (0, b)

/-- `u64::trailing_zeros` (= `BitBoard::first_idx_fwd`); 64 on the empty
board, matching Rust. Computed by binary splitting so that kernel
evaluation stays cheap. -/
def firstIdxFwd (b : Nat) : Nat :=
  if b = 0 then 64 else
  let s32 := tzStep 32 b
  let s16 := tzStep 16 s32.2
  let s8 := tzStep 8 s16.2
  let s4 := tzStep 4 s8.2
  let s2 := tzStep 2 s4.2
  let s1 := tzStep 1 s2.2
  s32.1 + s16.1 + s8.1 + s4.1 + s2.1 + s1.1

/-- One halving step used to compute the highest set bit. -/
def msbStep (w b : Nat) : Nat × Nat :=
  if b ≥ 2 ^ w then (w, b / 2 ^ w) else (0, b)

/-- `BitBoard::first_idx_rev` = `63 - leading_zeros`: index of the highest
set bit.  The source leaves the empty board undefined (callers always
check); this embedding returns 0 there. -/
def firstIdxRev (b : Nat) : Nat :=
  let s32 := msbStep 32 b
  let s16 := msbStep 16 s32.2
  let s8 := msbStep 8 s16.2
  let s4 := msbStep 4 s8.2
  let s2 := msbStep 2 s4.2
  let s1 := msbStep 1 s2.2
  s32.1 + s16.1 + s8.1 + s4.1 + s2.1 + s1.1

/-- Helper for `popcount`. -/
def popcountAux : Nat → Nat → Nat
  | 0, _ => 0
  | fuel + 1, b => if b = 0 then 0 else b % 2 + popcountAux fuel (b / 2)

/-- `BitBoard::popcount` (`u64::count_ones`). -/
def popcount (b : Nat) : Nat := popcountAux 64 b

/-- Helper for `bbPieces`, mirroring `PiecesIterator::next`: repeatedly take
the lowest set bit, stopping when `shift + x` runs off the board
(`Locus::from_idx` returns `None`). -/
def bbPiecesAux : Nat → Nat → Nat → List Nat
  | 0, _, _ => []
  | fuel + 1, b, shift =>
    let x := firstIdxFwd b
    if shift + x ≥ 64 then []
    else (shift + x) :: bbPiecesAux fuel (b >>> (x + 1)) (shift + x + 1)

/-- `BitBoard::iter_pieces` collected into a list: the set squares of the
board in ascending index order. -/
def bbPieces (b : Nat) : List Nat := bbPiecesAux 64 b 0

/-! ## Pieces (`src/piece.rs`) -/

/-- `Colour`. -/
inductive Colour where
  | white
  | black
deriving DecidableEq, Repr

/-- `Colour as u8` (`White = 0`, `Black = 1`). -/
def Colour.toNat : Colour → Nat
  | .white => 0
  | .black => 1

/-- `Colour::next`. -/
def Colour.next : Colour → Colour
  | .white => .black
  | .black => .white

/-- `PieceKind`, in source declaration order (`Pawn = 0 .. King = 5`). -/
inductive PieceKind where
  | pawn
  | knight
  | bishop
  | rook
  | queen
  | king
deriving DecidableEq, Repr

/-- `PieceKind as u8`. -/
def PieceKind.toNat : PieceKind → Nat
  | .pawn => 0
  | .knight => 1
  | .bishop => 2
  | .rook => 3
  | .queen => 4
  | .king => 5

/-- `PieceKind::try_from` on `idx % 6` (always succeeds there). -/
def pieceKindOfNat : Nat → PieceKind
  | 0 => .pawn
  | 1 => .knight
  | 2 => .bishop
  | 3 => .rook
  | 4 => .queen
  | _ => .king

/-- `Piece`: a single index in `[0, 11]` (`kind + colour * 6`). -/
structure Piece where
  idx : Nat
deriving DecidableEq, Repr

/-- `Piece::new`. -/
def Piece.new (k : PieceKind) (c : Colour) : Piece :=
  ⟨k.toNat + c.toNat * 6⟩

/-- `Piece::kind`. -/
def Piece.kind (p : Piece) : PieceKind := pieceKindOfNat (p.idx % 6)

/-- `Piece::colour`. -/
def Piece.colour (p : Piece) : Colour :=
  if p.idx / 6 = 0 then .white else .black

/-! ## Castling rights (`src/position/castling_rights.rs`) -/

/-- `CastlingRight`. -/
structure CastlingRight where
  kingSide : Bool
  queenSide : Bool
deriving DecidableEq, Repr

/-- `CastlingRight::empty`. -/
def CastlingRight.empty : CastlingRight := ⟨false, false⟩

/-- `CastlingRight::has_any`. -/
def CastlingRight.hasAny (r : CastlingRight) : Bool := r.kingSide || r.queenSide

/-- `CastlingRights`: one `CastlingRight` per colour. -/
structure CastlingRights where
  white : CastlingRight
  black : CastlingRight
deriving DecidableEq, Repr

/-- `CastlingRights::empty`. -/
def CastlingRights.empty : CastlingRights := ⟨.empty, .empty⟩

/-- `CastlingRights::default`: every right set. -/
def CastlingRights.dfl : CastlingRights := ⟨⟨true, true⟩, ⟨true, true⟩⟩

/-- Indexing `CastlingRights` by `Colour`. -/
def CastlingRights.get (cr : CastlingRights) : Colour → CastlingRight
  | .white => cr.white
  | .black => cr.black

/-- Writing one colour's `CastlingRight`. -/
def CastlingRights.put (cr : CastlingRights) (c : Colour) (r : CastlingRight) :
    CastlingRights :=
  match c with
  | .white => { cr with white := r }
  | .black => { cr with black := r }

/-- `CastlingRights::clear(c, loc)`: only acts when `loc` is on `c`'s home
rank; file h clears the kingside right, file a the queenside right. -/
def CastlingRights.clear (cr : CastlingRights) (c : Colour) (loc : Nat) :
    CastlingRights :=
  let home : Nat := match c with | .white => 0 | .black => 7
  if locRank loc ≠ home then cr
  else if locFile loc = 7 then cr.put c { cr.get c with kingSide := false }
  else if locFile loc = 0 then cr.put c { cr.get c with queenSide := false }
  else cr

/-! ## Moves (`src/mmove.rs`) -/

/-- `CastlingMoveType`. -/
inductive CastlingMoveType where
  | queenside
  | kingside
deriving DecidableEq, Repr

/-- `MoveType`. -/
inductive MoveType where
  | normal
  | doublePPush
  | enPassant
  | castle (k : CastlingMoveType)
  | promote (p : Piece)
deriving DecidableEq, Repr

/-- `Move`. -/
structure Move where
  piece : Piece
  src : Nat
  dst : Nat
  capture : Option Piece
  kind : MoveType
deriving DecidableEq, Repr

/-! ## Zobrist keys (`src/position/zobrist.rs`)

`Zobrist::new` fills the key tables deterministically from a seeded ChaCha8
generator (an external crate).  The embedding abstracts the filled tables as
functions; every theorem below holds for an arbitrary key table, and the
engine uses one fixed table everywhere. -/

/-- The Zobrist key tables (field layout of `struct Zobrist`). -/
structure Zobrist where
  pieceSqTables : Nat → Nat → Nat
  btm : Nat
  castlingRightsTbl : Nat → Nat
  epFile : Nat → Nat

/-- `Zobrist::piece_loc_key`. -/
def Zobrist.pieceLocKey (z : Zobrist) (p : Piece) (l : Nat) : Nat :=
  z.pieceSqTables p.idx l

/-- `Zobrist::btm_key`. -/
def Zobrist.btmKey (z : Zobrist) : Nat := z.btm

/-- `Zobrist::castling_rights_key`: file a maps to slot 0, file h to slot 1
of the colour's pair, any other file contributes key 0. -/
def Zobrist.castlingRightsKey (z : Zobrist) (c : Colour) (l : Nat) : Nat :=
  if locFile l = 0 then z.castlingRightsTbl (c.toNat * 2)
  else if locFile l = 7 then z.castlingRightsTbl (c.toNat * 2 + 1)
  else 0

/-- `Zobrist::ep_key`: keyed by the file of the en-passant square. -/
def Zobrist.epKey (z : Zobrist) (l : Nat) : Nat := z.epFile (locFile l)

/-! ## Position (`src/position.rs`) -/

/-- `UndoMove`: the undo record pushed by `make_move`. -/
structure UndoMove where
  mmove : Move
  epState : Option Nat
  castlingRights : CastlingRights
  hash : Nat
deriving DecidableEq, Repr

/-- `Position`.  `bboards` is the twelve piece bitboards indexed by
`Piece.idx`; `moveStack` is the undo stack with its top at the head (the
source's `ArrayVec<UndoMove, 512>` pushes and pops at the same end).  The
`zobrist` field of the source struct is the process-wide key table and is
passed separately to the functions below. -/
structure Position where
  bboards : List Nat
  toPlay : Colour
  enPassant : Option Nat
  castlingRights : CastlingRights
  materialCount : Nat
  moveStack : List UndoMove
  hash : Nat
deriving DecidableEq, Repr

/-- `Position::empty`. -/
def Position.empty : Position :=
  { bboards := List.replicate 12 0
    toPlay := .white
    enPassant := none
    castlingRights := .empty
    materialCount := 0
    moveStack := []
    hash := 0 }

/-- `self[p]`: the bitboard of piece `p`. -/
def Position.bb (p : Position) (pc : Piece) : Nat := p.bboards.getD pc.idx 0

/-- Writing the bitboard of piece `p`. -/
def Position.putBb (p : Position) (pc : Piece) (b : Nat) : Position :=
  { p with bboards := p.bboards.set pc.idx b }

/-- `Position::clr_piece_at`: clear the board bit and XOR the piece-square
key into the hash. -/
def Position.clrPieceAt (z : Zobrist) (p : Position) (pc : Piece) (loc : Nat) :
    Position :=
  { p with
    bboards := p.bboards.set pc.idx (bbClear (p.bb pc) loc)
    hash := p.hash ^^^ z.pieceLocKey pc loc }

/-- `Position::set_piece_at`: set the board bit and XOR the piece-square
key into the hash. -/
def Position.setPieceAt (z : Zobrist) (p : Position) (pc : Piece) (loc : Nat) :
    Position :=
  { p with
    bboards := p.bboards.set pc.idx (bbSet (p.bb pc) loc)
    hash := p.hash ^^^ z.pieceLocKey pc loc }

/-- `Position::get_castling_rook_positions`: `(rook_src, rook_dst)` per
colour and castling side (h1/f1, a1/d1, h8/f8, a8/d8). -/
def castlingRookPositions (c : Colour) (k : CastlingMoveType) : Nat × Nat :=
  match c, k with
  | .white, .kingside => (7, 5)
  | .white, .queenside => (0, 3)
  | .black, .kingside => (63, 61)
  | .black, .queenside => (56, 59)

/-- `Position::all_pieces_for_colour`. -/
def Position.allPiecesForColour (p : Position) (c : Colour) : Nat :=
  (List.map (fun k => p.bb (Piece.new k c))
    [PieceKind.pawn, .knight, .bishop, .rook, .queen, .king]).foldl (· ||| ·) 0

/-- The kind-specific board mutation of `Position::make_move` (the `match
mmove.kind` block).  `none` models the `unwrap` panics on a double push or
en-passant capture whose destination has no square behind it. -/
def makeMoveKind (z : Zobrist) (p : Position) (m : Move) : Option Position :=
  match m.kind with
  | .normal =>
    let p := match m.capture with
      | some cp => p.clrPieceAt z cp m.dst
      | none => p
    some (p.setPieceAt z m.piece m.dst)
  | .doublePPush =>
    let epLoc? := match m.piece.colour with
      | .white => locSouth m.dst
      | .black => locNorth m.dst
    match epLoc? with
    | none => none
    | some epLoc =>
      let p := { p with enPassant := some epLoc, hash := p.hash ^^^ z.epKey epLoc }
      some (p.setPieceAt z m.piece m.dst)
  | .enPassant =>
    let capSq? := match p.toPlay with
      | .white => locSouth m.dst
      | .black => locNorth m.dst
    match capSq? with
    | none => none
    | some capSq =>
      let p := p.clrPieceAt z (Piece.new .pawn p.toPlay.next) capSq
      some (p.setPieceAt z m.piece m.dst)
  | .promote promoPiece =>
    let p := match m.capture with
      | some cp => p.clrPieceAt z cp m.dst
      | none => p
    some (p.setPieceAt z promoPiece m.dst)
  | .castle castleKind =>
    let rp := castlingRookPositions p.toPlay castleKind
    let rook := Piece.new .rook p.toPlay
    let p := p.setPieceAt z m.piece m.dst
    let p := p.clrPieceAt z rook rp.1
    some (p.setPieceAt z rook rp.2)

/-- The castling-rights update of `Position::make_move` (both `if` blocks
after the kind match). -/
def makeMoveCastling (z : Zobrist) (p : Position) (m : Move) : Position :=
  let p :=
    if (p.castlingRights.get p.toPlay).hasAny then
      match m.piece.kind with
      | .king =>
        { p with
          castlingRights := p.castlingRights.put p.toPlay .empty
          hash := p.hash ^^^ z.castlingRightsKey p.toPlay 0
                         ^^^ z.castlingRightsKey p.toPlay 7 }
      | .rook =>
        { p with
          castlingRights := p.castlingRights.clear p.toPlay m.src
          hash := p.hash ^^^ z.castlingRightsKey p.toPlay m.src }
      | _ => p
    else p
  if (p.castlingRights.get p.toPlay.next).hasAny then
    { p with castlingRights := p.castlingRights.clear p.toPlay.next m.dst }
  else p

/-- `Position::make_move`.  Returns `none` where the source would panic:
an `unwrap` failure inside the kind match or a push onto a full 512-entry
undo stack. -/
def makeMove (z : Zobrist) (p : Position) (m : Move) : Option Position :=
  if p.moveStack.length ≥ 512 then none else
  let undo : UndoMove :=
    ⟨m, p.enPassant, p.castlingRights, p.hash⟩
  let p := match p.enPassant with
    | some epLoc => { p with hash := p.hash ^^^ z.epKey epLoc, enPassant := none }
    | none => p
  let p := p.clrPieceAt z m.piece m.src
  match makeMoveKind z p m with
  | none => none
  | some p =>
    let p := makeMoveCastling z p m
    let p := { p with toPlay := p.toPlay.next, hash := p.hash ^^^ z.btmKey }
    some { p with moveStack := undo :: p.moveStack }

/-- The kind-specific board mutation of `Position::undo_move`. -/
def undoMoveKind (z : Zobrist) (p : Position) (m : Move) : Option Position :=
  match m.kind with
  | .normal =>
    let p := p.clrPieceAt z m.piece m.dst
    some (match m.capture with
      | some cp => p.setPieceAt z cp m.dst
      | none => p)
  | .doublePPush =>
    some (p.clrPieceAt z m.piece m.dst)
  | .enPassant =>
    let p := p.clrPieceAt z m.piece m.dst
    let capSq? := match p.toPlay with
      | .white => locSouth m.dst
      | .black => locNorth m.dst
    match capSq? with
    | none => none
    | some capSq =>
      some (p.setPieceAt z (Piece.new .pawn p.toPlay.next) capSq)
  | .promote promoPiece =>
    let p := p.clrPieceAt z promoPiece m.dst
    some (match m.capture with
      | some cp => p.setPieceAt z cp m.dst
      | none => p)
  | .castle castleKind =>
    let rp := castlingRookPositions p.toPlay castleKind
    let rook := Piece.new .rook p.toPlay
    let p := p.clrPieceAt z m.piece m.dst
    let p := p.setPieceAt z rook rp.1
    some (p.clrPieceAt z rook rp.2)

/-- `Position::undo_move`.  Pops the undo record (`none` on an empty stack,
which the token discipline makes unreachable in the source), reverses the
board mutation, then restores en-passant state, castling rights and hash
verbatim from the record. -/
def undoMove (z : Zobrist) (p : Position) : Option Position :=
  match p.moveStack with
  | [] => none
  | undo :: rest =>
    let m := undo.mmove
    let p := { p with moveStack := rest, toPlay := p.toPlay.next }
    match undoMoveKind z p m with
    | none => none
    | some p =>
      let p := p.setPieceAt z m.piece m.src
      let p := p.putBb m.piece (bbClear (bbSet (p.bb m.piece) m.src) m.dst)
      some { p with
        enPassant := undo.epState
        castlingRights := undo.castlingRights
        hash := undo.hash }

/-! ## Position builder (`src/position/builder.rs`) -/

/-- `PositionBuilder::new` starts from `Position::empty`; the builder is its
inner position. -/
def builderNew : Position := Position.empty

/-- `PositionBuilder::with_next_turn`. -/
def withNextTurn (p : Position) (c : Colour) : Position := { p with toPlay := c }

/-- `PositionBuilder::with_piece_board`. -/
def withPieceBoard (p : Position) (pc : Piece) (b : Nat) : Position := p.putBb pc b

/-- `PositionBuilder::with_piece_at`. -/
def withPieceAt (p : Position) (pc : Piece) (l : Nat) : Position :=
  withPieceBoard p pc (bbSet (p.bb pc) l)

/-- `PositionBuilder::with_castling_rights`. -/
def withCastlingRights (p : Position) (cr : CastlingRights) : Position :=
  { p with castlingRights := cr }

/-- The piece kinds in `PieceKind::iter()` order. -/
def pieceKindList : List PieceKind := [.pawn, .knight, .bishop, .rook, .queen, .king]

/-- `PositionBuilder::build`: count the pieces of every kind and colour
(the counter is a `u8`, hence the reduction mod 256, reachable only with
more than 255 pieces on the boards) and store the total as
`material_count`. -/
def builderBuild (p : Position) : Position :=
  { p with
    materialCount :=
      ((pieceKindList.map fun k =>
        popcount (p.bb (Piece.new k .white)) + popcount (p.bb (Piece.new k .black))).foldl
          (· + ·) 0) % 256 }

/-- `Position::default`: the standard starting position, built exactly as in
the source (`pawns = 0xff`, `rooks = 0b10000001`, ..., shifted into place). -/
def defaultPosition : Position :=
  builderBuild
    (withCastlingRights
      (withPieceBoard
        (withPieceBoard
          (withPieceBoard
            (withPieceBoard
              (withPieceBoard
                (withPieceBoard
                  (withPieceBoard
                    (withPieceBoard
                      (withPieceBoard
                        (withPieceBoard
                          (withPieceBoard
                            (withPieceBoard
                              (withNextTurn builderNew .white)
                              (Piece.new .pawn .white) (0xff <<< 8))
                            (Piece.new .pawn .black) (0xff <<< 48))
                          (Piece.new .rook .white) 0b10000001)
                        (Piece.new .rook .black) (0b10000001 <<< 56))
                      (Piece.new .knight .white) 0b01000010)
                    (Piece.new .knight .black) (0b01000010 <<< 56))
                  (Piece.new .bishop .white) 0b00100100)
                (Piece.new .bishop .black) (0b00100100 <<< 56))
              (Piece.new .king .white) (locToBitboard 4))
            (Piece.new .king .black) (locToBitboard 60))
          (Piece.new .queen .white) (locToBitboard 3))
        (Piece.new .queen .black) (locToBitboard 59))
      CastlingRights.dfl)

/-- The colours in `Colour::iter()` order. -/
def colourList : List Colour := [.white, .black]

/-- `Zobrist::from_position`: the hash of a position recomputed from
scratch — XOR of the piece-square keys of every piece on the boards, the
black-to-move key when black is to play, the castling-rights keys (a1/h1
slots per colour) for each retained right, and the en-passant file key
when a target square is set. -/
def zobristFromPosition (z : Zobrist) (pos : Position) : Nat :=
  let key :=
    pieceKindList.foldl (fun key k =>
      colourList.foldl (fun key c =>
        (bbPieces (pos.bb (Piece.new k c))).foldl
          (fun key l => key ^^^ z.pieceLocKey (Piece.new k c) l) key) key) 0
  let key := if pos.toPlay = Colour.black then key ^^^ z.btmKey else key
  let key :=
    colourList.foldl (fun key c =>
      let crights := pos.castlingRights.get c
      let key := if crights.queenSide then key ^^^ z.castlingRightsKey c 0 else key
      if crights.kingSide then key ^^^ z.castlingRightsKey c 7 else key) key
  match pos.enPassant with
  | some ep => key ^^^ z.epKey ep
  | none => key

/-! ## FEN (`src/position/fen.rs`)

The module-local FEN grammar of `Position::from_fen`: `parse_fen` there
reads the piece-placement field, a space and the side-to-move field and
stops (`Finish` discards any remaining input). -/

/-- `Element` of the piece-placement field. -/
inductive FenElement where
  | piece (p : Piece)
  | space (n : Nat)
deriving DecidableEq, Repr

/-- `parse_piece` on a single char (`one_of("rnbkqpRNBKQP")`). -/
def parsePieceChar (c : Char) : Option Piece :=
  let kind? : Option PieceKind :=
    if c.toLower = 'r' then some .rook
    else if c.toLower = 'n' then some .knight
    else if c.toLower = 'b' then some .bishop
    else if c.toLower = 'q' then some .queen
    else if c.toLower = 'k' then some .king
    else if c.toLower = 'p' then some .pawn
    else none
  kind?.map fun k => Piece.new k (if c.isUpper then .white else .black)

/-- `parse_space` on a single char (`one_of("12345678")` parsed as a
number). -/
def parseSpaceChar (c : Char) : Option Nat :=
  if '1' ≤ c ∧ c ≤ '8' then some (c.toNat - '0'.toNat) else none

/-- `parse_element`: `alt((parse_piece, parse_space))`. -/
def parseElement : List Char → Option (FenElement × List Char)
  | [] => none
  | c :: rest =>
    match parsePieceChar c with
    | some p => some (.piece p, rest)
    | none =>
      match parseSpaceChar c with
      | some n => some (.space n, rest)
      | none => none

/-- The `many0` tail of `parse_rank` (fuel is the input length, enough for
the greedy repetition). -/
def parseRankAux : Nat → List Char → List FenElement × List Char
  | 0, s => ([], s)
  | fuel + 1, s =>
    match parseElement s with
    | none => ([], s)
    | some (e, rest) =>
      let r := parseRankAux fuel rest
      (e :: r.1, r.2)

/-- `parse_rank`: `many1(parse_element)`. -/
def parseRank (s : List Char) : Option (List FenElement × List Char) :=
  match parseElement s with
  | none => none
  | some (e, rest) =>
    let r := parseRankAux rest.length rest
    some (e :: r.1, r.2)

/-- The repetition tail of `parse_board` (`separated_list1(tag("/"),
parse_rank)`): a `/` followed by a rank, backtracking over a trailing
unmatched separator. -/
def parseBoardAux : Nat → List Char → List (List FenElement) × List Char
  | 0, s => ([], s)
  | fuel + 1, s =>
    match s with
    | '/' :: rest =>
      (match parseRank rest with
       | none => ([], s)
       | some (r, rest2) =>
         let x := parseBoardAux fuel rest2
         (r :: x.1, x.2))
    | _ => ([], s)

/-- `parse_board`: `separated_list1(tag("/"), parse_rank)`. -/
def parseBoard (s : List Char) : Option (List (List FenElement) × List Char) :=
  match parseRank s with
  | none => none
  | some (r, rest) =>
    let x := parseBoardAux rest.length rest
    some (r :: x.1, x.2)

/-- The parsed `Fen` struct of `src/position/fen.rs`: board and colour only;
this `parse_fen` never reads the castling-availability or en-passant
fields. -/
structure Fen where
  board : List (List FenElement)
  colour : Colour
deriving DecidableEq, Repr

/-- `parse_fen` of `src/position/fen.rs`: `tuple((parse_board, tag(" "),
parse_colour))`, leftover input discarded by `Finish`. -/
def parseFen (s : List Char) : Option Fen :=
  match parseBoard s with
  | none => none
  | some (b, rest) =>
    match rest with
    | ' ' :: 'w' :: _ => some ⟨b, .white⟩
    | ' ' :: 'b' :: _ => some ⟨b, .black⟩
    | _ => none

/-- `shift` inside `Position::from_fen` applied `n` times: step the cursor
east, failing (`bail`) when it has already run off the rank. -/
def fenShiftN : Nat → Option Nat → Option (Option Nat)
  | 0, loc => some loc
  | n + 1, loc =>
    match loc with
    | none => none
    | some l => fenShiftN n (locEast l)

/-- The per-rank element loop of `Position::from_fen`: place pieces from
file a eastwards. -/
def fenRankFold (pos : Position) (loc : Option Nat) :
    List FenElement → Option (Position × Option Nat)
  | [] => some (pos, loc)
  | .piece pc :: rest =>
    match loc with
    | none => none
    | some l =>
      match fenShiftN 1 (some l) with
      | none => none
      | some loc2 => fenRankFold (withPieceAt pos pc l) loc2 rest
  | .space n :: rest =>
    match fenShiftN n loc with
    | none => none
    | some loc2 => fenRankFold pos loc2 rest

/-- The rank loop of `Position::from_fen`: ranks come rank 8 first; each
rank must consume exactly its eight files. -/
def fenRanksFold (pos : Position) : List (List FenElement × Nat) → Option Position
  | [] => some pos
  | (elms, rank) :: rest =>
    match fenRankFold pos (some (rank * 8)) elms with
    | none => none
    | some (pos2, loc) =>
      if loc.isSome then none else fenRanksFold pos2 rest

/-- `Position::from_fen` (the `src/position/fen.rs` implementation): parse
with the module's `parse_fen`, require eight ranks, fill a builder with the
pieces, set the side to move and build.  No castling-rights or en-passant
information is ever transferred. -/
def fromFen (s : List Char) : Option Position :=
  match parseFen s with
  | none => none
  | some fen =>
    if fen.board.length ≠ 8 then none
    else
      match fenRanksFold builderNew (fen.board.zip [7, 6, 5, 4, 3, 2, 1, 0]) with
      | none => none
      | some pos => some (builderBuild (withNextTurn pos fen.colour))

/-! ## Transposition table (`src/search/ttable.rs`) and the probe step of
`Search::search` (`src/search.rs`) -/

/-- `INF = i32::MAX - 2`. -/
def INF : Int := 2147483645

/-- `MATE = INF - 1`. -/
def MATE : Int := INF - 1

/-- `EntryKind`. -/
inductive EntryKind where
  | score (m : Move)
  | alpha
  | beta
deriving DecidableEq, Repr

/-- `EntryKind::is_score`. -/
def EntryKind.isScore : EntryKind → Bool
  | .score _ => true
  | _ => false

/-- `TEntry`. -/
structure TEntry where
  hash : Nat
  depth : Nat
  kind : EntryKind
  eval : Int
deriving DecidableEq, Repr

/-- The transposition-table probe at the top of `Search::search`, given the
looked-up entry for the current hash: `some r` when the probe returns `r`
from the search, `none` when the search falls through to the main body. -/
def ttProbe (entry? : Option TEntry) (alpha beta : Int) (depth : Nat) : Option Int :=
  match entry? with
  | none => none
  | some e =>
    if e.kind.isScore ∧ (e.eval = -MATE ∨ e.eval = MATE) then some e.eval
    else if e.depth ≥ depth then
      match e.kind with
      | .score _ => some e.eval
      | .alpha => if e.eval ≤ alpha then some alpha else none
      | .beta => if e.eval ≥ beta then some beta else none
    else none

/-! ## Quiescence search control flow (`Search::quiescence`, `src/search.rs`)

`Search::quiescence` interacts with its collaborators only through the
static evaluation of the current position, the side to move, and the list
of generated capture moves (each giving, after `make_move`, a mover-in-check
flag and a child position).  A `QNode` packages exactly those observations,
so the embedding below is the control flow of `Search::quiescence` verbatim
with the collaborators abstracted; `fuel` bounds the recursion depth (the
source recursion terminates because captures run out). -/

inductive QNode where
  | node (eval : Int) (toPlay : Colour) (capMoves : List (Bool × QNode))

/-- `QNode` children: `(in_check_after_make, child_position)` for each
generated capture move, in generation order. -/
def QNode.capMoves : QNode → List (Bool × QNode)
  | .node _ _ cs => cs

/-- The static evaluation (White's perspective) at the node. -/
def QNode.eval : QNode → Int
  | .node e _ _ => e

/-- The side to move at the node. -/
def QNode.toPlay : QNode → Colour
  | .node _ c _ => c

mutual

/-- `Search::quiescence`, returning the score and the updated node counter
(`self.results.nodes`).  `shouldExit` is the atomic stop flag. -/
def quiescenceAux : Nat → Bool → QNode → Int → Int → Nat → Int × Nat
  | 0, _, _, alpha, _, nodes => (alpha, nodes)
  | fuel + 1, shouldExit, t, alpha, beta, nodes =>
    let standPat := if t.toPlay = .white then t.eval else -t.eval
    if standPat > beta then (beta, nodes)
    else
      let alpha := if alpha < standPat then standPat else alpha
      if nodes &&& 0xfff = 0xfff ∧ shouldExit = true then (0, nodes)
      else quiescenceLoop fuel shouldExit t.capMoves alpha beta nodes
termination_by fuel _ _ _ _ _ => (fuel, 0)

/-- The capture-move loop of `Search::quiescence`. -/
def quiescenceLoop : Nat → Bool → List (Bool × QNode) → Int → Int → Nat → Int × Nat
  | _, _, [], alpha, _, nodes => (alpha, nodes)
  | fuel, shouldExit, (inChk, child) :: rest, alpha, beta, nodes =>
    let nodes := nodes + 1
    if inChk then quiescenceLoop fuel shouldExit rest alpha beta nodes
    else
      let r := quiescenceAux fuel shouldExit child (-beta) (-alpha) nodes
      let score := -r.1
      if score ≥ beta then (beta, r.2)
      else if score > alpha then quiescenceLoop fuel shouldExit rest score beta r.2
      else quiescenceLoop fuel shouldExit rest alpha beta r.2
termination_by fuel _ l _ _ _ => (fuel, l.length + 1)

end

/-! ## Time management (`src/search/time.rs`) -/

/-- `TimeAction`; the `Iterate` payload is the next deadline in
nanoseconds. -/
inductive TimeAction where
  | yieldResult
  | iterate (d : Nat)
deriving DecidableEq, Repr

/-- `TimeMan` state; durations are nanoseconds. -/
structure TimeMan where
  timeLeft : Option Nat
  increment : Option Nat
  scores : List Int
  bestMoves : List Move
deriving DecidableEq, Repr

/-- The `Stats` fold of `TimeMan::iter_complete`: max minus min of the given
scores, starting from `(i32::MIN, i32::MAX)`. -/
def statsRange (l : List Int) : Int :=
  let s := l.foldl (fun (s : Int × Int) x => (max s.1 x, min s.2 x))
    (-2147483648, 2147483647)
  s.1 - s.2

/-- `Itertools::all_equal`. -/
def allEqual : List Move → Bool
  | [] => true
  | x :: rest => rest.all (· == x)

/-- Five milliseconds in nanoseconds (`Duration::from_millis(5)`). -/
def fiveMillis : Nat := 5000000

/-- The tail of `TimeMan::iter_complete` after the floor check: pick the
time-budget percentage by the score, then yield early at depth ≥ 5 when
the last five scores span less than 20 centipawns or the last five best
moves agree.  `mul35`/`mul15` abstract `Duration::mul_f32` by 0.35 and 0.15
(floating-point rounding the embedding does not model); the yield decisions
never depend on them. -/
def iterCompleteRest (mul35 mul15 : Nat → Nat) (timeLeft : Option Nat)
    (score : Int) (scores : List Int) (bestMoves : List Move) (depth : Nat) :
    TimeAction :=
  let timeLeftVal := match timeLeft with
    | some x => if score < -500 then mul35 x else mul15 x
    | none => 5000000000
  if depth < 5 then .iterate timeLeftVal
  else if statsRange (scores.reverse.take 5) < 20 then .yieldResult
  else if allEqual (bestMoves.reverse.take 5) then .yieldResult
  else .iterate timeLeftVal

/-- `TimeMan::iter_complete`.  Returns the action and the updated state;
`none` models the panics on a push onto a full 20-entry `ArrayVec` or a
`Duration` subtraction underflow. -/
def iterComplete (mul35 mul15 : Nat → Nat) (t : TimeMan) (score : Int)
    (bestMove : Move) (timeTaken : Nat) : Option (TimeAction × TimeMan) :=
  if t.scores.length ≥ 20 ∨ t.bestMoves.length ≥ 20 then none
  else
    let scores := t.scores ++ [score]
    let bestMoves := t.bestMoves ++ [bestMove]
    let depth := bestMoves.length
    match t.timeLeft with
    | some d =>
      if timeTaken > d then none
      else
        let d' := d - timeTaken
        let t' : TimeMan :=
          { t with timeLeft := some d', scores := scores, bestMoves := bestMoves }
        if d' < fiveMillis then some (.yieldResult, t')
        else some (iterCompleteRest mul35 mul15 t'.timeLeft score scores bestMoves depth, t')
    | none =>
      let t' : TimeMan := { t with scores := scores, bestMoves := bestMoves }
      some (iterCompleteRest mul35 mul15 t'.timeLeft score scores bestMoves depth, t')

/-! ## Rays (`src/position/movegen/rays.rs`) -/

/-- The inner loop of `mk_*_rays`: walk `step` from the square, collecting
every square reached.  The source tabulates this per square at compile
time; 64 fuel covers any walk across the board. -/
def rayWalk (step : Nat → Option Nat) : Nat → Nat → Nat
  | 0, _ => 0
  | fuel + 1, l =>
    match step l with
    | none => 0
    | some l2 => locToBitboard l2 ||| rayWalk step fuel l2

/-- Composition of two directional steps, as in the two-direction arm of
`mk_ray!`. -/
def step2 (d1 d2 : Nat → Option Nat) (l : Nat) : Option Nat := (d1 l).bind d2

/-- `NORTH_RAYS[l]`. -/
def northRay (l : Nat) : Nat := rayWalk locNorth 64 l

/-- `EAST_RAYS[l]`. -/
def eastRay (l : Nat) : Nat := rayWalk locEast 64 l

/-- `SOUTH_RAYS[l]`. -/
def southRay (l : Nat) : Nat := rayWalk locSouth 64 l

/-- `WEST_RAYS[l]`. -/
def westRay (l : Nat) : Nat := rayWalk locWest 64 l

/-- `NORTH_EAST_RAYS[l]`. -/
def neRay (l : Nat) : Nat := rayWalk (step2 locNorth locEast) 64 l

/-- `NORTH_WEST_RAYS[l]`. -/
def nwRay (l : Nat) : Nat := rayWalk (step2 locNorth locWest) 64 l

/-- `SOUTH_EAST_RAYS[l]`. -/
def seRay (l : Nat) : Nat := rayWalk (step2 locSouth locEast) 64 l

/-- `SOUTH_WEST_RAYS[l]`. -/
def swRay (l : Nat) : Nat := rayWalk (step2 locSouth locWest) 64 l

/-- `RANK_ONE`. -/
def RANK_ONE : Nat := [0, 1, 2, 3, 4, 5, 6, 7].foldl bbSet 0

/-- `RANK_EIGHT`. -/
def RANK_EIGHT : Nat := [56, 57, 58, 59, 60, 61, 62, 63].foldl bbSet 0

/-- `FILE_A`. -/
def FILE_A : Nat := [0, 8, 16, 24, 32, 40, 48, 56].foldl bbSet 0

/-- `FILE_H`. -/
def FILE_H : Nat := [7, 15, 23, 31, 39, 47, 55, 63].foldl bbSet 0

/-- `PERIMETER`. -/
def PERIMETER : Nat := FILE_A ||| FILE_H ||| RANK_ONE ||| RANK_EIGHT

/-- `mk_ray_move_fn!`: the naive ray walk with blockers.  Scanning forward
takes the lowest blocker index, backward the highest; the first blocker's
own square stays in the attack set, squares beyond it are removed. -/
def rayMoves (ray : Nat → Nat) (scanFwd : Bool) (src blockers : Nat) : Nat :=
  let srcRay := ray src
  let rayBlockers := srcRay &&& blockers
  if rayBlockers = 0 then srcRay
  else
    let firstBlocker := if scanFwd then firstIdxFwd rayBlockers
      else firstIdxRev rayBlockers
    srcRay &&& bbNot (ray firstBlocker)

/-- `calc_north_rays_moves`. -/
def calcNorthRaysMoves (src blockers : Nat) : Nat := rayMoves northRay true src blockers

/-- `calc_east_rays_moves`. -/
def calcEastRaysMoves (src blockers : Nat) : Nat := rayMoves eastRay true src blockers

/-- `calc_south_rays_moves`. -/
def calcSouthRaysMoves (src blockers : Nat) : Nat := rayMoves southRay false src blockers

/-- `calc_west_rays_moves`. -/
def calcWestRaysMoves (src blockers : Nat) : Nat := rayMoves westRay false src blockers

/-- `calc_north_east_rays_moves`. -/
def calcNeRaysMoves (src blockers : Nat) : Nat := rayMoves neRay true src blockers

/-- `calc_north_west_rays_moves`. -/
def calcNwRaysMoves (src blockers : Nat) : Nat := rayMoves nwRay true src blockers

/-- `calc_south_east_rays_moves`. -/
def calcSeRaysMoves (src blockers : Nat) : Nat := rayMoves seRay false src blockers

/-- `calc_south_west_rays_moves`. -/
def calcSwRaysMoves (src blockers : Nat) : Nat := rayMoves swRay false src blockers

/-- `ROOK_OCC_MASK[l]`: the union of the four `*_OCC_RAYS`, each a ray with
its board-edge end removed. -/
def rookOccMask (l : Nat) : Nat :=
  (northRay l &&& bbNot RANK_EIGHT) ||| (eastRay l &&& bbNot FILE_H) |||
  (westRay l &&& bbNot FILE_A) ||| (southRay l &&& bbNot RANK_ONE)

/-- `BISHOP_OCC_MASK[l]`: the union of the four diagonal `*_OCC_RAYS`, each
with the board perimeter removed. -/
def bishopOccMask (l : Nat) : Nat :=
  (neRay l &&& bbNot PERIMETER) ||| (nwRay l &&& bbNot PERIMETER) |||
  (seRay l &&& bbNot PERIMETER) ||| (swRay l &&& bbNot PERIMETER)

/-! ## Magic tables (`src/position/movegen/magics.rs`) -/

/-- `ROOK_SHIFTS`. -/
def ROOK_SHIFTS : List Nat :=
  [12, 11, 11, 11, 11, 11, 11, 12, 11, 10, 10, 10, 10, 10, 10, 11, 11, 10,
   10, 10, 10, 10, 10, 11, 11, 10, 10, 10, 10, 10, 10, 11, 11, 10, 10, 10,
   10, 10, 10, 11, 11, 10, 10, 10, 10, 10, 10, 11, 11, 10, 10, 10, 10, 10,
   10, 11, 12, 11, 11, 11, 11, 11, 11, 12]

/-- `ROOK_MAGICS`. -/
def ROOK_MAGICS : List Nat :=
  [0x80003060804008, 0x100208411004000, 0x2000A1040820020, 0x100100020450008,
   0x1A002200040810A0, 0x900088500021400, 0x8100028200210004,
   0x180008000204100, 0x200A002081044200, 0x8404401004406004,
   0x51B9002002410030, 0x89A003042000820, 0x4080800C00812800,
   0x4082001002000429, 0x400C000401502A08, 0x5880802100004080,
   0x481461800C400084, 0x9100888020004000, 0x2810110020030041,
   0x2020010482040, 0x1010808008000400, 0x10808042000400, 0x1010100020004,
   0x185020000830844, 0x2A0E802080004008, 0x1200080804000, 0x210448200120020,
   0x1012100100448, 0x8400080100050010, 0x4002C0801104020,
   0xA0C4104400120108, 0x100040200028043, 0x40004012A1800084,
   0x100A00040401002, 0x2004822000801000, 0x1080200A02001041,
   0xA18008008800400, 0x1002001002000418, 0x2001001C01000200,
   0x810009004E000084, 0x9011249040008000, 0x8040022000808042,
   0x1009420080120022, 0x610021101090020, 0x4040008008080, 0x811000400090012,
   0x885019040042, 0x4008420560001, 0x1004801048210100, 0x4804000610300,
   0x820B104100200100, 0x501100080480080, 0x280004110100, 0x54010040020040,
   0x1006000108040600, 0x210084024200, 0x80044010A0800101, 0x2029001480C001,
   0x42000401021000D, 0x120100009001D, 0x2002088100402, 0x1003400020801,
   0x80122104084, 0x180402400428106]

/-- `BISHOP_SHIFTS`. -/
def BISHOP_SHIFTS : List Nat :=
  [6, 5, 5, 5, 5, 5, 5, 6, 5, 5, 5, 5, 5, 5, 5, 5, 5, 5, 7, 7, 7, 7, 5, 5, 5,
   5, 7, 9, 9, 7, 5, 5, 5, 5, 7, 9, 9, 7, 5, 5, 5, 5, 7, 7, 7, 7, 5, 5, 5, 5,
   5, 5, 5, 5, 5, 5, 6, 5, 5, 5, 5, 5, 5, 6]

/-- `BISHOP_MAGICS`. -/
def BISHOP_MAGICS : List Nat :=
  [0x222840808005080, 0x20082E08802020, 0xC028218400800480,
   0x200808C300000800, 0x8004242090800089, 0x4460880540040066,
   0x42101C200001, 0x80C40047103094, 0x8038400404240846, 0x1800101006008064,
   0x4003100122002401, 0xA012382290582004, 0x280020211062810,
   0x1000051320100000, 0x4000004410041100, 0x200019208808A840,
   0xCC1050C4104420, 0x624001204740400, 0x10050806405020, 0x8800A12040C109,
   0x1020820081000, 0x1002082414013, 0x402008111132000, 0x40910104011300,
   0xA0081010020805, 0x4084200011021080, 0x2021131080600, 0x20080049004208,
   0x60B01000010C000, 0xC00C0500829000A0, 0x100084204E011400,
   0x2004C1810111880A, 0x1E1084000481120, 0x8202021BA00800, 0x440024040808C1,
   0x808020280480080, 0x408020400021100, 0x4040022041008, 0x82208400A11401,
   0x500A040440030040, 0x400610046010CC00, 0x840120241800, 0x220030002201,
   0x2200002011040801, 0x10040810120200, 0x2020111204200200, 0x805044C040089,
   0x9004040882040060, 0x8420424814400040, 0xD41030801044200,
   0x41010840C060040, 0x2480410484041001, 0x12000100A0A0100,
   0x8040052004090000, 0x9220094214840000, 0x9480800404100,
   0xC006020043049004, 0x104011400820800, 0x402008901881400,
   0x10200880840420, 0x88010004100A0608, 0x8088801210300120,
   0x100600230020084, 0x808020812450204]

/-- `MagicKind`. -/
inductive MagicKind where
  | rook
  | bishop
deriving DecidableEq, Repr

/-- The occupancy mask selected by `kind`. -/
def occMask : MagicKind → Nat → Nat
  | .rook => rookOccMask
  | .bishop => bishopOccMask

/-- The magic multipliers selected by `kind`. -/
def magicsOf : MagicKind → List Nat
  | .rook => ROOK_MAGICS
  | .bishop => BISHOP_MAGICS

/-- The shift counts selected by `kind`. -/
def shiftsOf : MagicKind → List Nat
  | .rook => ROOK_SHIFTS
  | .bishop => BISHOP_SHIFTS

/-- `Magics::idx`: `(blockers * magic mod 2^64) >> (64 - shift)`. -/
def magicIdx (blockers magic shift : Nat) : Nat :=
  (blockers * magic % 2 ^ 64) >>> (64 - shift)

/-- The attack set written into the table for a blocker subset: the union
of the four ray walks for the kind, in source order. -/
def rayAttacks : MagicKind → Nat → Nat → Nat
  | .rook, loc, blocker =>
    calcNorthRaysMoves loc blocker ||| calcEastRaysMoves loc blocker |||
    calcSouthRaysMoves loc blocker ||| calcWestRaysMoves loc blocker
  | .bishop, loc, blocker =>
    calcNeRaysMoves loc blocker ||| calcNwRaysMoves loc blocker |||
    calcSeRaysMoves loc blocker ||| calcSwRaysMoves loc blocker

/-- All subsets of the given bit positions, as bitboards — the
`powerset` + fold of `Magics::new` (the enumeration order differs from
itertools', which is irrelevant: the verified table property below is
order-independent). -/
def subsetsOf : List Nat → List Nat
  | [] => [0]
  | b :: rest =>
    let ss := subsetsOf rest
    ss ++ ss.map (fun x => x ||| 1 <<< b)

/-- A binary trie with values at depth-`d` leaves: the embedding of the
per-square `Vec<BitBoard>` of `2 ^ shift` entries, keyed on the low `shift`
bits of the index. -/
inductive BTrie where
  | nil
  | leaf (v : Nat)
  | node (l r : BTrie)

/-- Indexed write `table[key] = v` (key read low bit first). -/
def BTrie.insertAt : BTrie → Nat → Nat → Nat → BTrie
  | _, 0, _, v => .leaf v
  | t, d + 1, key, v =>
    let l := match t with | .node l _ => l | _ => .nil
    let r := match t with | .node _ r => r | _ => .nil
    if key % 2 = 0 then .node (BTrie.insertAt l d (key / 2) v) r
    else .node l (BTrie.insertAt r d (key / 2) v)

/-- Indexed read `table[key]`; unwritten slots hold `BitBoard::empty()`,
matching the `vec![BitBoard::empty(); 1 << shift]` initialisation. -/
def BTrie.findAt : BTrie → Nat → Nat → Nat
  | .leaf v, 0, _ => v
  | .node l r, d + 1, key =>
    if key % 2 = 0 then l.findAt d (key / 2) else r.findAt d (key / 2)
  | _, _, _ => 0

/-- The per-square table fill of `Magics::new`: for every subset of the
occupancy mask, store its ray-walk attack set at its magic index. -/
def magicTable (k : MagicKind) (sq : Nat) : BTrie :=
  let magic := (magicsOf k).getD sq 0
  let shift := (shiftsOf k).getD sq 0
  (subsetsOf (bbPieces (occMask k sq))).foldl
    (fun t blocker =>
      t.insertAt shift (magicIdx blocker magic shift) (rayAttacks k sq blocker))
    .nil

/-- `Magics::lookup`. -/
def magicLookup (k : MagicKind) (loc blockers : Nat) : Nat :=
  let blockers := blockers &&& occMask k loc
  let magic := (magicsOf k).getD loc 0
  let shift := (shiftsOf k).getD loc 0
  (magicTable k loc).findAt shift (magicIdx blockers magic shift)

/-- Completeness of the square scan on a mask: every set bit below 64 shows
up in `bbPieces`. -/
def maskBitsComplete (mask : Nat) : Bool :=
  (List.range 64).all fun i => !mask.testBit i || (bbPieces mask).contains i

/-- The union of `2 ^ magicIdx (acc ∪ x)` over every subset `x` of the mask
bits `bits`, computed by binary splitting on the bit list: a bitset of
every magic index the blocker subsets hash to. -/
def idxUnion (magic shift : Nat) : List Nat → Nat → Nat
  | [], acc => 1 <<< magicIdx acc magic shift
  | b :: rest, acc =>
    idxUnion magic shift rest acc ||| idxUnion magic shift rest (acc ||| 1 <<< b)

/-- The per-square certificate: the occupancy mask fits in 64 bits, its bit
scan is complete, the mask has exactly `shift` bits, `shift` stays within
the word, and the `2 ^ shift` subsets hash onto all of `[0, 2 ^ shift)` —
the magic is a perfect (collision-free) hash for the square. -/
def magicSquareOk (k : MagicKind) (sq : Nat) : Bool :=
  let mask := occMask k sq
  let magic := (magicsOf k).getD sq 0
  let shift := (shiftsOf k).getD sq 0
  decide (mask < 2 ^ 64) && maskBitsComplete mask &&
  decide ((bbPieces mask).length = shift) && decide (shift ≤ 64) &&
  decide (idxUnion magic shift (bbPieces mask) 0 = 2 ^ 2 ^ shift - 1)

/-- The certificate over all 64 squares and both sliding-piece kinds. -/
def magicAllOk : Bool :=
  (List.range 64).all fun sq => magicSquareOk .rook sq && magicSquareOk .bishop sq

/-! ## Knight and king attack tables (`src/position/movegen/knight.rs`,
`src/position/movegen/king.rs`) -/

/-- `BitBoard::opt_or`. -/
def optOr (b : Nat) : Option Nat → Nat
  | some bb => b ||| bb
  | none => b

/-- A one-step king move as a bitboard (`gen_king_move!` single direction). -/
def mv1 (d : Nat → Option Nat) (l : Nat) : Option Nat := (d l).map locToBitboard

/-- A two-step diagonal king move (`gen_king_move!` two directions). -/
def mv2 (d1 d2 : Nat → Option Nat) (l : Nat) : Option Nat :=
  ((d1 l).bind d2).map locToBitboard

/-- A three-step knight jump (`gen_knight_attack!`). -/
def mv3 (d1 d2 d3 : Nat → Option Nat) (l : Nat) : Option Nat :=
  (((d1 l).bind d2).bind d3).map locToBitboard

/-- `KING_MOVES[l]` (`gen_king_move`), directions in source order. -/
def kingMovesAt (l : Nat) : Nat :=
  optOr (optOr (optOr (optOr (optOr (optOr (optOr (optOr 0
    (mv1 locNorth l)) (mv1 locEast l)) (mv1 locSouth l)) (mv1 locWest l))
    (mv2 locNorth locEast l)) (mv2 locNorth locWest l))
    (mv2 locSouth locEast l)) (mv2 locSouth locWest l)

/-- `KNIGHT_MOVES[l]` (`gen_knight_attacks`), jumps in source order. -/
def knightMovesAt (l : Nat) : Nat :=
  optOr (optOr (optOr (optOr (optOr (optOr (optOr (optOr 0
    (mv3 locNorth locNorth locWest l)) (mv3 locNorth locNorth locEast l))
    (mv3 locEast locEast locNorth l)) (mv3 locEast locEast locSouth l))
    (mv3 locSouth locSouth locEast l)) (mv3 locSouth locSouth locWest l))
    (mv3 locWest locWest locSouth l)) (mv3 locWest locWest locNorth l)

/-! ## Pawn tables and pawn move generation (`src/position/movegen/pawn.rs`) -/

/-- `PawnMove`. -/
structure PawnMove where
  bb : Nat
  promotes : Bool
deriving DecidableEq, Repr

/-- `calc_pawn_move`: the push-target bitboard (single and, from the home
rank, double push) and the promotion flag.  The `unwrap`s in the source are
guarded by the rank test; the unreachable arms return the empty table
entry. -/
def calcPawnMove (l : Nat) (c : Colour) : PawnMove :=
  let isWhite := c = Colour.white
  let homeRank : Nat := if isWhite then 1 else 6
  let srcR := locRank l
  if srcR = 0 ∨ srcR = 7 then ⟨0, false⟩
  else
    match (if isWhite then locNorth l else locSouth l) with
    | none => ⟨0, false⟩
    | some mv =>
      let homeMv := if srcR = homeRank then
          match (if isWhite then locNorth mv else locSouth mv) with
          | none => mv
          | some m2 => m2
        else mv
      let dstR := locRank mv
      let bb := bbSet (bbSet 0 mv) homeMv
      let promotionRank : Nat := if isWhite then 7 else 0
      ⟨bb, dstR = promotionRank⟩

/-- `calc_pawn_attack`: the two diagonal capture targets and the promotion
flag. -/
def calcPawnAttack (l : Nat) (c : Colour) : PawnMove :=
  let isWhite := c = Colour.white
  match (if isWhite then locNorth l else locSouth l) with
  | none => ⟨0, false⟩
  | some m =>
    let bb : Nat := 0
    let bb := match locEast m with
      | some e => bbSet bb e
      | none => bb
    let bb := match locWest m with
      | some w => bbSet bb w
      | none => bb
    let promotionRank : Nat := if isWhite then 7 else 0
    ⟨bb, locRank m = promotionRank⟩

/-- `MoveGen::blockers`: the union of all twelve piece bitboards. -/
def blockersOf (p : Position) : Nat := p.bboards.foldl (· ||| ·) 0

/-- `Position::iter_opponent_bbds`: the six `(piece, bitboard)` pairs of
the side not to move, in `PieceKind` order. -/
def iterOpponentBbds (p : Position) : List (Piece × Nat) :=
  pieceKindList.map fun k =>
    let pc := Piece.new k p.toPlay.next
    (pc, p.bb pc)

/-- `MoveGen::add_pawn_promotions`: one move per `PROMOTION_KINDS` entry
(bishop, knight, queen, rook, in source order). -/
def addPawnPromotions (m : Move) (c : Colour) : List Move :=
  [PieceKind.bishop, .knight, .queen, .rook].map fun k =>
    { m with kind := .promote (Piece.new k c) }

/-- `MoveGen::calc_pawn_moves` for the pawn on `src`, as the list of moves
it pushes, in push order: diagonal captures (with promotions expanded),
then the en-passant emission, then pushes (double pushes marked, promotions
expanded) unless the home-rank blocker mask cuts the push loop short.
The en-passant emission builds its move with `with_dst` alone, so its kind
is `Normal` and its capture is `None`, exactly as in the source. -/
def calcPawnMoves (p : Position) (blockers : Nat) (src : Nat) : List Move :=
  let piece := Piece.new .pawn p.toPlay
  let moves := match p.toPlay with
    | .white => calcPawnMove src .white
    | .black => calcPawnMove src .black
  let attacks := match p.toPlay with
    | .white => calcPawnAttack src .white
    | .black => calcPawnAttack src .black
  let capturePart := (iterOpponentBbds p).flatMap fun ob =>
    (bbPieces (attacks.bb &&& ob.2)).flatMap fun dst =>
      let b : Move := { piece := piece, src := src, dst := dst,
                        capture := some ob.1, kind := .normal }
      if attacks.promotes then addPawnPromotions b p.toPlay else [b]
  let epPart := match p.enPassant with
    | some epLoc =>
      if bbHas attacks.bb epLoc then
        [{ piece := piece, src := src, dst := epLoc, capture := none,
           kind := .normal }]
      else []
    | none => []
  let homeBlockerMask : Nat := match p.toPlay with
    | .white => 0xff0000
    | .black => 0xff0000000000
  let pushPart :=
    if moves.bb &&& blockers &&& homeBlockerMask ≠ 0 then []
    else
      (bbPieces (moves.bb &&& bbNot (blockers &&& moves.bb))).flatMap fun dst =>
        let b : Move := { piece := piece, src := src, dst := dst,
                          capture := none, kind := .normal }
        if (locRank src = 1 ∧ locRank dst = 3) ∨
           (locRank src = 6 ∧ locRank dst = 4) then
          [{ b with kind := .doublePPush }]
        else if moves.promotes then addPawnPromotions b p.toPlay
        else [b]
  capturePart ++ epPart ++ pushPart

/-- A minimal en-passant position (kings omitted; they play no role in
pawn move generation or `make_move`): white pawn a5 (square 32), black
pawn b5 (square 33), en-passant target b6 (square 41), white to move —
the state reached when black answers a white pawn's advance to a5 with
the double push b7–b5. -/
def epBugPos : Position :=
  builderBuild
    { withPieceAt
        (withPieceAt (withNextTurn builderNew .white) (Piece.new .pawn .white) 32)
        (Piece.new .pawn .black) 33
      with enPassant := some 41 }

/-- A bare castling position: white king e1, white rooks a1 and h1, full
castling rights, white to move, no other pieces. -/
def castlePos : Position :=
  builderBuild
    (withCastlingRights
      (withPieceAt
        (withPieceAt
          (withPieceAt (withNextTurn builderNew .white) (Piece.new .king .white) 4)
          (Piece.new .rook .white) 0)
        (Piece.new .rook .white) 7)
      CastlingRights.dfl)

/-! ## Attack queries (`loc_attacked_by_*`, `is_loc_under_attack`,
`in_check`) -/

/-- `MoveGen::loc_attacked_by_pawn`: a white attacker is found through the
black pawn-attack table of the target square and vice versa. -/
def locAttackedByPawn (p : Position) (l : Nat) (c : Colour) : Bool :=
  let attacks := match c with
    | .white => (calcPawnAttack l .black).bb
    | .black => (calcPawnAttack l .white).bb
  p.bb (Piece.new .pawn c) &&& attacks ≠ 0

/-- Modelled from the spec: `loc_attacked_by_knight` is called by
`is_loc_under_attack` but its definition is not in the source tree; §4.6
specifies attack queries as "whether the piece's attack set from the
target square (symmetric for non-pawns) intersects the corresponding
bitboard", which for the knight is the precomputed jump table. -/
def locAttackedByKnight (p : Position) (l : Nat) (c : Colour) : Bool :=
  p.bb (Piece.new .knight c) &&& knightMovesAt l ≠ 0

/-- `Position::loc_attacked_by_king`. -/
def locAttackedByKing (p : Position) (l : Nat) (c : Colour) : Bool :=
  p.bb (Piece.new .king c) &&& kingMovesAt l ≠ 0

/-- The `rays` helper of `src/position/movegen/bishop.rs`. -/
def bishopRays (src blockers : Nat) : Nat :=
  calcNwRaysMoves src blockers ||| calcNeRaysMoves src blockers |||
  calcSwRaysMoves src blockers ||| calcSeRaysMoves src blockers

/-- The `rays` helper of `src/position/movegen/rook.rs`. -/
def rookRays (src blockers : Nat) : Nat :=
  calcNorthRaysMoves src blockers ||| calcEastRaysMoves src blockers |||
  calcSouthRaysMoves src blockers ||| calcWestRaysMoves src blockers

/-- The `rays` helper of `src/position/movegen/queen.rs` (all eight
directions). -/
def queenRays (src blockers : Nat) : Nat :=
  calcNwRaysMoves src blockers ||| calcNeRaysMoves src blockers |||
  calcSwRaysMoves src blockers ||| calcSeRaysMoves src blockers |||
  calcNorthRaysMoves src blockers ||| calcEastRaysMoves src blockers |||
  calcSouthRaysMoves src blockers ||| calcWestRaysMoves src blockers

/-- `MoveGen::loc_attacked_by_bishop`. -/
def locAttackedByBishop (p : Position) (blockers l : Nat) (c : Colour) : Bool :=
  p.bb (Piece.new .bishop c) &&& bishopRays l blockers ≠ 0

/-- `Position::loc_attacked_by_rook`. -/
def locAttackedByRook (p : Position) (blockers l : Nat) (c : Colour) : Bool :=
  p.bb (Piece.new .rook c) &&& rookRays l blockers ≠ 0

/-- `MoveGen::loc_attacked_by_queen`. -/
def locAttackedByQueen (p : Position) (blockers l : Nat) (c : Colour) : Bool :=
  p.bb (Piece.new .queen c) &&& queenRays l blockers ≠ 0

/-- `MoveGen::is_loc_under_attack`: the six queries, in source order. -/
def isLocUnderAttack (p : Position) (blockers l : Nat) (c : Colour) : Bool :=
  locAttackedByQueen p blockers l c || locAttackedByBishop p blockers l c ||
  locAttackedByKnight p l c || locAttackedByRook p blockers l c ||
  locAttackedByPawn p l c || locAttackedByKing p l c

/-- `MoveGen::in_check`: the given colour's king square (the first set bit
of its king board; the source `unwrap`s there, so a position with no king
panics — theorems about `inCheck` assume a nonempty king board). -/
def inCheck (p : Position) (blockers : Nat) (colour : Colour) : Bool :=
  let kingLoc := firstIdxFwd (p.bb (Piece.new .king colour))
  isLocUnderAttack p blockers kingLoc colour.next

/-! ## King move generation (`src/position/movegen/king.rs`) -/

/-- `BLOCKER_MASK_KINGSIDE`, indexed by colour: f1/g1 and f8/g8. -/
def BLOCKER_MASK_KINGSIDE : Colour → Nat
  | .white => bbSet (bbSet 0 5) 6
  | .black => bbSet (bbSet 0 61) 62

/-- `BLOCKER_MASK_QUEENSIDE`, indexed by colour: b1/c1/d1 and b8/c8/d8. -/
def BLOCKER_MASK_QUEENSIDE : Colour → Nat
  | .white => bbSet (bbSet (bbSet 0 1) 2) 3
  | .black => bbSet (bbSet (bbSet 0 57) 58) 59

/-- `CHECK_SQ_KINGSIDE`, indexed by colour: f1 and f8. -/
def CHECK_SQ_KINGSIDE : Colour → Nat
  | .white => 5
  | .black => 61

/-- `CHECK_SQ_QUEENSIDE`, indexed by colour: d1 and d8. -/
def CHECK_SQ_QUEENSIDE : Colour → Nat
  | .white => 3
  | .black => 59

/-- `Position::calc_king_moves` for the king on `src`: opponent captures,
quiet steps, then the kingside and queenside castling moves, each emitted
exactly when the right is held, the blocker mask is clear, the crossing
square is not attacked and the king is not in check. -/
def calcKingMoves (p : Position) (src : Nat) : List Move :=
  let piece := Piece.new .king p.toPlay
  let blockers := blockersOf p
  let moves := kingMovesAt src
  let r := locRank src
  let capturePart := (iterOpponentBbds p).flatMap fun ob =>
    (bbPieces (moves &&& ob.2)).map fun dst =>
      { piece := piece, src := src, dst := dst, capture := some ob.1,
        kind := MoveType.normal }
  let quietPart := (bbPieces (moves &&& bbNot (blockers &&& moves))).map fun dst =>
    { piece := piece, src := src, dst := dst, capture := none,
      kind := MoveType.normal }
  let castlingRights := p.castlingRights.get p.toPlay
  let kingsidePart :=
    if castlingRights.kingSide ∧ BLOCKER_MASK_KINGSIDE p.toPlay &&& blockers = 0 ∧
       ¬isLocUnderAttack p blockers (CHECK_SQ_KINGSIDE p.toPlay) p.toPlay.next ∧
       ¬inCheck p blockers p.toPlay then
      [{ piece := piece, src := src, dst := r * 8 + 6, capture := none,
         kind := MoveType.castle .kingside }]
    else []
  let queensidePart :=
    if castlingRights.queenSide ∧ BLOCKER_MASK_QUEENSIDE p.toPlay &&& blockers = 0 ∧
       ¬isLocUnderAttack p blockers (CHECK_SQ_QUEENSIDE p.toPlay) p.toPlay.next ∧
       ¬inCheck p blockers p.toPlay then
      [{ piece := piece, src := src, dst := r * 8 + 2, capture := none,
         kind := MoveType.castle .queenside }]
    else []
  capturePart ++ quietPart ++ kingsidePart ++ queensidePart

/-- The legality consequences `make_move`/`undo_move` rely on. -/
def MoveOk (p : Position) (m : Move) : Prop :=
  m.piece.idx < 12 ∧ m.src < 64 ∧ m.dst < 64 ∧
  bbHas (p.bb m.piece) m.src = true ∧ bbHas (p.bb m.piece) m.dst = false ∧
  p.moveStack.length < 512 ∧
  (match m.kind with
   | .normal =>
     ∀ cp, m.capture = some cp →
       cp.idx < 12 ∧ cp.idx ≠ m.piece.idx ∧ bbHas (p.bb cp) m.dst = true
   | .doublePPush =>
     (m.piece.colour = .white → 8 ≤ m.dst) ∧
     (m.piece.colour = .black → m.dst + 8 < 64)
   | .enPassant =>
     let opp := Piece.new .pawn p.toPlay.next
     (p.toPlay = .white → 8 ≤ m.dst) ∧ (p.toPlay = .black → m.dst + 8 < 64) ∧
     opp.idx ≠ m.piece.idx ∧
     bbHas (p.bb opp)
       (match p.toPlay with | .white => m.dst - 8 | .black => m.dst + 8) = true
   | .promote pp =>
     pp.idx < 12 ∧ pp.idx ≠ m.piece.idx ∧ bbHas (p.bb pp) m.dst = false ∧
     (∀ cp, m.capture = some cp →
       cp.idx < 12 ∧ cp.idx ≠ m.piece.idx ∧ cp.idx ≠ pp.idx ∧
       bbHas (p.bb cp) m.dst = true)
   | .castle ck =>
     let rook := Piece.new .rook p.toPlay
     let rp := castlingRookPositions p.toPlay ck
     rook.idx ≠ m.piece.idx ∧ bbHas (p.bb rook) rp.1 = true ∧
     bbHas (p.bb rook) rp.2 = false)

/-! ## Bitboard lemmas -/

theorem decide_nat_eq_symm (a b : Nat) : decide (a = b) = decide (b = a) := by
  by_cases h : a = b
  · subst h
    rfl
  · rw [decide_eq_false h, decide_eq_false (fun hh => h hh.symm)]

theorem testBit_bbSet (b l i : Nat) :
    (bbSet b l).testBit i = (b.testBit i || decide (i = l)) := by
  simp only [bbSet, locToBitboard, Nat.testBit_or, Nat.one_shiftLeft,
    Nat.testBit_two_pow]
  rw [decide_nat_eq_symm]

theorem testBit_bbClear (b l i : Nat) (hl : l < 64) :
    (bbClear b l).testBit i =
      (b.testBit i && !decide (i = l) && decide (i < 64)) := by
  simp only [bbClear, bbNot, u64Mask, locToBitboard, Nat.testBit_and,
    Nat.testBit_xor, Nat.testBit_two_pow_sub_one, Nat.one_shiftLeft,
    Nat.testBit_two_pow]
  rw [decide_nat_eq_symm l i]
  by_cases h : i = l
  · subst h
    simp [hl]
  · by_cases h2 : i < 64 <;> simp [h, h2]

theorem testBit_high (b i : Nat) (hb : b < 2 ^ 64) (hi : 64 ≤ i) :
    b.testBit i = false :=
  Nat.testBit_lt_two_pow (lt_of_lt_of_le hb (Nat.pow_le_pow_right (by norm_num) hi))

theorem bbHas_iff_testBit (b l : Nat) : bbHas b l = b.testBit l := by
  simp only [bbHas, Nat.one_shiftLeft, Nat.and_two_pow]
  rcases h : b.testBit l <;>
    simp [h, Nat.ne_of_gt (Nat.pos_pow_of_pos l (show 0 < 2 by norm_num))]

theorem bbClear_lt (b l : Nat) (hb : b < 2 ^ 64) : bbClear b l < 2 ^ 64 :=
  lt_of_le_of_lt Nat.and_le_left hb

theorem bbSet_lt (b l : Nat) (hb : b < 2 ^ 64) (hl : l < 64) :
    bbSet b l < 2 ^ 64 := by
  refine Nat.or_lt_two_pow hb ?_
  simp only [locToBitboard, Nat.one_shiftLeft]
  exact Nat.pow_lt_pow_right (by norm_num) hl

/-! ## List lemmas for the twelve-board array -/

theorem getD_set_self (l : List Nat) (i : Nat) (a : Nat) (h : i < l.length) :
    (l.set i a).getD i 0 = a := by
  rw [List.getD_eq_getElem?_getD, List.getElem?_set_self h]
  rfl

theorem getD_set_ne (l : List Nat) (i j : Nat) (a : Nat) (h : i ≠ j) :
    (l.set i a).getD j 0 = l.getD j 0 := by
  rw [List.getD_eq_getElem?_getD, List.getElem?_set_ne h,
    ← List.getD_eq_getElem?_getD]

theorem set_getD_self (l : List Nat) (i : Nat) (h : i < l.length) :
    l.set i (l.getD i 0) = l := by
  refine List.ext_getElem? fun j => ?_
  by_cases hij : i = j
  · subst hij
    rw [List.getElem?_set_self h, List.getD_eq_getElem?_getD,
      List.getElem?_eq_getElem h]
    rfl
  · exact List.getElem?_set_ne hij

theorem Colour.next_next (c : Colour) : c.next.next = c := by
  cases c <;> rfl

/-! ## Frame lemmas for make/undo -/

theorem makeMoveCastling_frame (z : Zobrist) (p : Position) (m : Move) :
    (makeMoveCastling z p m).bboards = p.bboards ∧
    (makeMoveCastling z p m).toPlay = p.toPlay ∧
    (makeMoveCastling z p m).enPassant = p.enPassant ∧
    (makeMoveCastling z p m).materialCount = p.materialCount ∧
    (makeMoveCastling z p m).moveStack = p.moveStack := by
  unfold makeMoveCastling
  rcases p with ⟨bbs, tp, ep, cr, mat, stk, h⟩
  simp only []
  repeat' split
  all_goals simp

/-! ## Bitboard roundtrip lemmas -/

theorem bbSet_bbClear_cancel (bb0 l : Nat) (h64 : bb0 < 2 ^ 64) (hl : l < 64)
    (hhas : bbHas bb0 l = true) : bbSet (bbClear bb0 l) l = bb0 := by
  rw [bbHas_iff_testBit] at hhas
  refine Nat.eq_of_testBit_eq fun i => ?_
  by_cases hi : i < 64
  · rw [testBit_bbSet, testBit_bbClear _ _ _ hl]
    by_cases h1 : i = l
    · subst h1
      simp [hhas]
    · simp [h1, hi]
  · rw [testBit_bbSet, testBit_bbClear _ _ _ hl,
      testBit_high bb0 i h64 (le_of_not_lt hi)]
    simp [hi]
    omega

theorem bbClear_bbSet_cancel (bb0 l : Nat) (h64 : bb0 < 2 ^ 64) (hl : l < 64)
    (hnot : bbHas bb0 l = false) : bbClear (bbSet bb0 l) l = bb0 := by
  rw [bbHas_iff_testBit] at hnot
  refine Nat.eq_of_testBit_eq fun i => ?_
  by_cases hi : i < 64
  · rw [testBit_bbClear _ _ _ hl, testBit_bbSet]
    by_cases h1 : i = l
    · subst h1
      simp [hnot]
    · simp [h1, hi]
  · rw [testBit_bbClear _ _ _ hl,
      testBit_high bb0 i h64 (le_of_not_lt hi)]
    simp [hi]

theorem board_mover_roundtrip (bb0 src dst : Nat) (h64 : bb0 < 2 ^ 64)
    (hs : src < 64) (hd : dst < 64)
    (hhas : bbHas bb0 src = true) (hnot : bbHas bb0 dst = false) :
    bbClear (bbSet (bbSet (bbClear (bbSet (bbClear bb0 src) dst) dst) src) src)
      dst = bb0 := by
  rw [bbHas_iff_testBit] at hhas hnot
  have hsd : src ≠ dst := fun h => by rw [h, hnot] at hhas; exact Bool.noConfusion hhas
  refine Nat.eq_of_testBit_eq fun i => ?_
  by_cases hi : i < 64
  · rw [testBit_bbClear _ _ _ hd, testBit_bbSet, testBit_bbSet,
      testBit_bbClear _ _ _ hd, testBit_bbSet, testBit_bbClear _ _ _ hs]
    by_cases h1 : i = src
    · subst h1
      simp [hhas, fun h => hsd h, hs]
    · by_cases h2 : i = dst
      · subst h2
        simp [hnot]
      · simp [h1, h2, hi]
  · rw [testBit_bbClear _ _ _ hd, testBit_high bb0 i h64 (le_of_not_lt hi)]
    simp [hi]

theorem board_promote_roundtrip (bb0 src dst : Nat) (h64 : bb0 < 2 ^ 64)
    (hs : src < 64) (hd : dst < 64)
    (hhas : bbHas bb0 src = true) (hnot : bbHas bb0 dst = false) :
    bbClear (bbSet (bbSet (bbClear bb0 src) src) src) dst = bb0 := by
  rw [bbHas_iff_testBit] at hhas hnot
  have hsd : src ≠ dst := fun h => by rw [h, hnot] at hhas; exact Bool.noConfusion hhas
  refine Nat.eq_of_testBit_eq fun i => ?_
  by_cases hi : i < 64
  · rw [testBit_bbClear _ _ _ hd, testBit_bbSet, testBit_bbSet,
      testBit_bbClear _ _ _ hs]
    by_cases h1 : i = src
    · subst h1
      simp [hhas, fun h => hsd h, hs]
    · by_cases h2 : i = dst
      · subst h2
        simp [hnot]
      · simp [h1, h2, hi]
  · rw [testBit_bbClear _ _ _ hd, testBit_high bb0 i h64 (le_of_not_lt hi)]
    simp [hi]

theorem board_rook_roundtrip (rb0 a b : Nat) (h64 : rb0 < 2 ^ 64)
    (ha : a < 64) (hb : b < 64) (hab : a ≠ b)
    (hhas : bbHas rb0 a = true) (hnot : bbHas rb0 b = false) :
    bbClear (bbSet (bbSet (bbClear rb0 a) b) a) b = rb0 := by
  rw [bbHas_iff_testBit] at hhas hnot
  refine Nat.eq_of_testBit_eq fun i => ?_
  by_cases hi : i < 64
  · rw [testBit_bbClear _ _ _ hb, testBit_bbSet, testBit_bbSet,
      testBit_bbClear _ _ _ ha]
    by_cases h1 : i = a
    · subst h1
      simp [hhas, fun h => hab h, ha]
    · by_cases h2 : i = b
      · subst h2
        simp [hnot]
      · simp [h1, h2, hi]
  · rw [testBit_bbClear _ _ _ hb, testBit_high rb0 i h64 (le_of_not_lt hi)]
    simp [hi]

theorem makeMoveCastling_bboards (z : Zobrist) (p : Position) (m : Move) :
    (makeMoveCastling z p m).bboards = p.bboards := (makeMoveCastling_frame z p m).1

theorem makeMoveCastling_toPlay (z : Zobrist) (p : Position) (m : Move) :
    (makeMoveCastling z p m).toPlay = p.toPlay := (makeMoveCastling_frame z p m).2.1

theorem makeMoveCastling_enPassant (z : Zobrist) (p : Position) (m : Move) :
    (makeMoveCastling z p m).enPassant = p.enPassant := (makeMoveCastling_frame z p m).2.2.1

theorem makeMoveCastling_materialCount (z : Zobrist) (p : Position) (m : Move) :
    (makeMoveCastling z p m).materialCount = p.materialCount := (makeMoveCastling_frame z p m).2.2.2.1

theorem makeMoveCastling_moveStack (z : Zobrist) (p : Position) (m : Move) :
    (makeMoveCastling z p m).moveStack = p.moveStack := (makeMoveCastling_frame z p m).2.2.2.2

theorem bb_mem_lt (bbs : List Nat) (i : Nat) (h : i < bbs.length)
    (hball : ∀ b ∈ bbs, b < 2 ^ 64) : bbs.getD i 0 < 2 ^ 64 := by
  have hm : bbs.getD i 0 ∈ bbs := by
    rw [List.getD_eq_getElem?_getD, List.getElem?_eq_getElem h]
    exact List.getElem_mem h
  exact hball _ hm

/-- C1: for every position and legal move (whose legality consequences are
recorded in `MoveOk`, with well-formed boards), `make_move` followed by
`undo_move` on its token restores the position bit-for-bit: all twelve
piece bitboards, side to move, castling rights, en-passant target, material
count, undo stack and Zobrist hash are exactly as before the move. -/
theorem make_undo_roundtrip (z : Zobrist) (p : Position) (m : Move)
    (hb : p.bboards.length = 12) (hball : ∀ b ∈ p.bboards, b < 2 ^ 64)
    (hm : MoveOk p m) :
    (makeMove z p m).bind (undoMove z) = some p := by
  obtain ⟨hpi, hsrc, hdst, hhas, hnot, hlen, hkind⟩ := hm
  rcases m with ⟨pc, src, dst, cap, kind⟩
  rcases p with ⟨bbs, tp, ep, cr, mat, stk, hsh⟩
  simp only [Position.bb] at hhas hnot hkind
  simp only at hpi hsrc hdst hlen
  unfold makeMove
  rw [if_neg (by simp only []; omega)]
  rcases kind with _ | _ | _ | ck | pp
  case normal =>
    rcases cap with _ | cp
    case none =>
      rcases ep with _ | epLoc <;>
        simp only [makeMoveKind, Position.clrPieceAt, Position.setPieceAt,
          Position.bb, Position.putBb, makeMoveCastling_bboards,
          makeMoveCastling_toPlay, makeMoveCastling_enPassant,
          makeMoveCastling_materialCount, makeMoveCastling_moveStack,
          Option.some_bind, undoMove, undoMoveKind, Colour.next_next] <;>
      · have hpl : pc.idx < bbs.length := by simp at hb; omega
        have h64 : bbs.getD pc.idx 0 < 2 ^ 64 := bb_mem_lt _ _ hpl (by simpa using hball)
        simp only [List.set_set, List.length_set, hpl, getD_set_self,
          Option.some.injEq, Position.mk.injEq]
        rw [board_mover_roundtrip _ _ _ h64 hsrc hdst hhas hnot,
          set_getD_self _ _ hpl]
        simp
    case some =>
      obtain ⟨hci, hcne, hchas⟩ := hkind cp rfl
      have hpl : pc.idx < bbs.length := by simp at hb; omega
      have hcl : cp.idx < bbs.length := by simp at hb; omega
      rcases ep with _ | epLoc <;>
        simp only [makeMoveKind, Position.clrPieceAt, Position.setPieceAt,
          Position.bb, Position.putBb, makeMoveCastling_bboards,
          makeMoveCastling_toPlay, makeMoveCastling_enPassant,
          makeMoveCastling_materialCount, makeMoveCastling_moveStack,
          Option.some_bind, undoMove, undoMoveKind, Colour.next_next] <;>
      · simp only [List.set_set, List.length_set, hpl, hcl, getD_set_self,
          getD_set_ne, hcne, Ne.symm hcne, ne_eq, not_false_iff,
          Option.some.injEq, Position.mk.injEq]
        have hball' : ∀ b ∈ bbs, b < 2 ^ 64 := by simpa using hball
        have h64 : bbs.getD pc.idx 0 < 2 ^ 64 := bb_mem_lt _ _ hpl hball'
        have hc64 : bbs.getD cp.idx 0 < 2 ^ 64 := bb_mem_lt _ _ hcl hball'
        refine ⟨List.ext_getElem? fun j => ?_, trivial, trivial, trivial,
          trivial, trivial, trivial⟩
        by_cases hj : j = pc.idx
        · subst hj
          rw [List.getElem?_set_self (by simp only [List.length_set]; exact hpl),
            board_mover_roundtrip _ _ _ h64 hsrc hdst hhas hnot,
            List.getD_eq_getElem?_getD, List.getElem?_eq_getElem hpl]
          rfl
        · by_cases hj2 : j = cp.idx
          · subst hj2
            rw [List.getElem?_set_ne (Ne.symm hcne),
              List.getElem?_set_self (by simp only [List.length_set]; exact hcl),
              bbSet_bbClear_cancel _ _ hc64 hdst hchas,
              List.getD_eq_getElem?_getD, List.getElem?_eq_getElem hcl]
            rfl
          · rw [List.getElem?_set_ne (show pc.idx ≠ j from fun h => hj h.symm),
              List.getElem?_set_ne (show cp.idx ≠ j from fun h => hj2 h.symm),
              List.getElem?_set_ne (show pc.idx ≠ j from fun h => hj h.symm),
              List.getElem?_set_ne (show cp.idx ≠ j from fun h => hj2 h.symm),
              List.getElem?_set_ne (show pc.idx ≠ j from fun h => hj h.symm)]
  case doublePPush =>
    have hpl : pc.idx < bbs.length := by simp at hb; omega
    have hball' : ∀ b ∈ bbs, b < 2 ^ 64 := by simpa using hball
    have h64 : bbs.getD pc.idx 0 < 2 ^ 64 := bb_mem_lt _ _ hpl hball'
    rcases hcol : pc.colour
    case white =>
      have h8 : 8 ≤ dst := hkind.1 hcol
      rcases ep with _ | epLoc <;>
        simp only [makeMoveKind, hcol, locSouth, if_neg (show ¬dst < 8 by omega),
          Position.clrPieceAt, Position.setPieceAt,
          Position.bb, Position.putBb, makeMoveCastling_bboards,
          makeMoveCastling_toPlay, makeMoveCastling_enPassant,
          makeMoveCastling_materialCount, makeMoveCastling_moveStack,
          Option.some_bind, undoMove, undoMoveKind, Colour.next_next] <;>
      · simp only [List.set_set, List.length_set, hpl, getD_set_self,
          Option.some.injEq, Position.mk.injEq]
        rw [board_mover_roundtrip _ _ _ h64 hsrc hdst hhas hnot,
          set_getD_self _ _ hpl]
        simp
    case black =>
      have h8 : dst + 8 < 64 := hkind.2 hcol
      rcases ep with _ | epLoc <;>
        simp only [makeMoveKind, hcol, locNorth, if_neg (show ¬dst + 8 ≥ 64 by omega),
          Position.clrPieceAt, Position.setPieceAt,
          Position.bb, Position.putBb, makeMoveCastling_bboards,
          makeMoveCastling_toPlay, makeMoveCastling_enPassant,
          makeMoveCastling_materialCount, makeMoveCastling_moveStack,
          Option.some_bind, undoMove, undoMoveKind, Colour.next_next] <;>
      · simp only [List.set_set, List.length_set, hpl, getD_set_self,
          Option.some.injEq, Position.mk.injEq]
        rw [board_mover_roundtrip _ _ _ h64 hsrc hdst hhas hnot,
          set_getD_self _ _ hpl]
        simp
  case enPassant =>
    have hpl : pc.idx < bbs.length := by simp at hb; omega
    have hball' : ∀ b ∈ bbs, b < 2 ^ 64 := by simpa using hball
    have h64 : bbs.getD pc.idx 0 < 2 ^ 64 := bb_mem_lt _ _ hpl hball'
    rcases tp
    case white =>
      obtain ⟨hw, _, hone, hohas⟩ := hkind
      have h8 : 8 ≤ dst := hw rfl
      simp only [Piece.new, PieceKind.toNat, Colour.toNat, Colour.next,
        Nat.zero_add, Nat.one_mul] at hone hohas
      have hol : (6:Nat) < bbs.length := by simp at hb; omega
      have ho64 : bbs.getD 6 0 < 2 ^ 64 := bb_mem_lt _ _ hol hball'
      rcases ep with _ | epLoc <;>
        simp only [makeMoveKind, locSouth, if_neg (show ¬dst < 8 by omega),
          Position.clrPieceAt, Position.setPieceAt, Piece.new, PieceKind.toNat,
          Colour.toNat, Colour.next, Nat.zero_add, Nat.one_mul,
          Position.bb, Position.putBb, makeMoveCastling_bboards,
          makeMoveCastling_toPlay, makeMoveCastling_enPassant,
          makeMoveCastling_materialCount, makeMoveCastling_moveStack,
          Option.some_bind, undoMove, undoMoveKind, Colour.next_next] <;>
      · simp only [List.set_set, List.length_set, hpl, hol, getD_set_self,
          getD_set_ne, hone, Ne.symm hone, ne_eq, not_false_iff,
          Option.some.injEq, Position.mk.injEq]
        refine ⟨List.ext_getElem? fun j => ?_, trivial, trivial, trivial,
          trivial, trivial, trivial⟩
        by_cases hj : j = pc.idx
        · subst hj
          rw [List.getElem?_set_self (by simp only [List.length_set]; exact hpl),
            board_mover_roundtrip _ _ _ h64 hsrc hdst hhas hnot,
            List.getD_eq_getElem?_getD, List.getElem?_eq_getElem hpl]
          rfl
        · by_cases hj2 : j = 6
          · subst hj2
            rw [List.getElem?_set_ne (Ne.symm hone),
              List.getElem?_set_self (by simp only [List.length_set]; exact hol),
              bbSet_bbClear_cancel _ _ ho64 (show dst - 8 < 64 by omega) hohas,
              List.getD_eq_getElem?_getD, List.getElem?_eq_getElem hol]
            rfl
          · rw [List.getElem?_set_ne (show pc.idx ≠ j from fun h => hj h.symm),
              List.getElem?_set_ne (show (6:Nat) ≠ j from fun h => hj2 h.symm),
              List.getElem?_set_ne (show pc.idx ≠ j from fun h => hj h.symm),
              List.getElem?_set_ne (show (6:Nat) ≠ j from fun h => hj2 h.symm),
              List.getElem?_set_ne (show pc.idx ≠ j from fun h => hj h.symm)]
    case black =>
      obtain ⟨_, hbk, hone, hohas⟩ := hkind
      have h8 : dst + 8 < 64 := hbk rfl
      simp only [Piece.new, PieceKind.toNat, Colour.toNat, Colour.next,
        Nat.zero_add, Nat.mul_zero, Nat.zero_mul, Nat.add_zero] at hone hohas
      have hol : (0:Nat) < bbs.length := by simp at hb; omega
      have ho64 : bbs.getD 0 0 < 2 ^ 64 := bb_mem_lt _ _ hol hball'
      rcases ep with _ | epLoc <;>
        simp only [makeMoveKind, locNorth, if_neg (show ¬dst + 8 ≥ 64 by omega),
          Position.clrPieceAt, Position.setPieceAt, Piece.new, PieceKind.toNat,
          Colour.toNat, Colour.next, Nat.zero_add, Nat.mul_zero, Nat.zero_mul,
          Nat.add_zero,
          Position.bb, Position.putBb, makeMoveCastling_bboards,
          makeMoveCastling_toPlay, makeMoveCastling_enPassant,
          makeMoveCastling_materialCount, makeMoveCastling_moveStack,
          Option.some_bind, undoMove, undoMoveKind, Colour.next_next] <;>
      · simp only [List.set_set, List.length_set, hpl, hol, getD_set_self,
          getD_set_ne, hone, Ne.symm hone, ne_eq, not_false_iff,
          Option.some.injEq, Position.mk.injEq]
        refine ⟨List.ext_getElem? fun j => ?_, trivial, trivial, trivial,
          trivial, trivial, trivial⟩
        by_cases hj : j = pc.idx
        · subst hj
          rw [List.getElem?_set_self (by simp only [List.length_set]; exact hpl),
            board_mover_roundtrip _ _ _ h64 hsrc hdst hhas hnot,
            List.getD_eq_getElem?_getD, List.getElem?_eq_getElem hpl]
          rfl
        · by_cases hj2 : j = 0
          · subst hj2
            rw [List.getElem?_set_ne (Ne.symm hone),
              List.getElem?_set_self (by simp only [List.length_set]; exact hol),
              bbSet_bbClear_cancel _ _ ho64 (show dst + 8 < 64 by omega) hohas,
              List.getD_eq_getElem?_getD, List.getElem?_eq_getElem hol]
            rfl
          · rw [List.getElem?_set_ne (show pc.idx ≠ j from fun h => hj h.symm),
              List.getElem?_set_ne (show (0:Nat) ≠ j from fun h => hj2 h.symm),
              List.getElem?_set_ne (show pc.idx ≠ j from fun h => hj h.symm),
              List.getElem?_set_ne (show (0:Nat) ≠ j from fun h => hj2 h.symm),
              List.getElem?_set_ne (show pc.idx ≠ j from fun h => hj h.symm)]
  case promote =>
    obtain ⟨hppi, hppne, hppnot, hcapf⟩ := hkind
    have hpl : pc.idx < bbs.length := by simp at hb; omega
    have hppl : pp.idx < bbs.length := by simp at hb; omega
    have hball' : ∀ b ∈ bbs, b < 2 ^ 64 := by simpa using hball
    have h64 : bbs.getD pc.idx 0 < 2 ^ 64 := bb_mem_lt _ _ hpl hball'
    have hpp64 : bbs.getD pp.idx 0 < 2 ^ 64 := bb_mem_lt _ _ hppl hball'
    rcases cap with _ | cp
    case none =>
      rcases ep with _ | epLoc <;>
        simp only [makeMoveKind, Position.clrPieceAt, Position.setPieceAt,
          Position.bb, Position.putBb, makeMoveCastling_bboards,
          makeMoveCastling_toPlay, makeMoveCastling_enPassant,
          makeMoveCastling_materialCount, makeMoveCastling_moveStack,
          Option.some_bind, undoMove, undoMoveKind, Colour.next_next] <;>
      · simp only [List.set_set, List.length_set, hpl, hppl, getD_set_self,
          getD_set_ne, hppne, Ne.symm hppne, ne_eq, not_false_iff,
          Option.some.injEq, Position.mk.injEq]
        refine ⟨List.ext_getElem? fun j => ?_, trivial, trivial, trivial,
          trivial, trivial, trivial⟩
        by_cases hj : j = pc.idx
        · subst hj
          rw [List.getElem?_set_self (by simp only [List.length_set]; exact hpl),
            board_promote_roundtrip _ _ _ h64 hsrc hdst hhas hnot,
            List.getD_eq_getElem?_getD, List.getElem?_eq_getElem hpl]
          rfl
        · by_cases hj2 : j = pp.idx
          · subst hj2
            rw [List.getElem?_set_ne (show pc.idx ≠ pp.idx from Ne.symm hppne),
              List.getElem?_set_self (by simp only [List.length_set]; exact hppl),
              bbClear_bbSet_cancel _ _ hpp64 hdst hppnot,
              List.getD_eq_getElem?_getD, List.getElem?_eq_getElem hppl]
            rfl
          · rw [List.getElem?_set_ne (show pc.idx ≠ j from fun h => hj h.symm),
              List.getElem?_set_ne (show pp.idx ≠ j from fun h => hj2 h.symm),
              List.getElem?_set_ne (show pc.idx ≠ j from fun h => hj h.symm)]
    case some =>
      obtain ⟨hci, hcne, hcppne, hchas⟩ := hcapf cp rfl
      have hcl : cp.idx < bbs.length := by simp at hb; omega
      have hc64 : bbs.getD cp.idx 0 < 2 ^ 64 := bb_mem_lt _ _ hcl hball'
      rcases ep with _ | epLoc <;>
        simp only [makeMoveKind, Position.clrPieceAt, Position.setPieceAt,
          Position.bb, Position.putBb, makeMoveCastling_bboards,
          makeMoveCastling_toPlay, makeMoveCastling_enPassant,
          makeMoveCastling_materialCount, makeMoveCastling_moveStack,
          Option.some_bind, undoMove, undoMoveKind, Colour.next_next] <;>
      · simp only [List.set_set, List.length_set, hpl, hppl, hcl, getD_set_self,
          getD_set_ne, hppne, Ne.symm hppne, hcne, Ne.symm hcne, hcppne,
          Ne.symm hcppne, ne_eq, not_false_iff,
          Option.some.injEq, Position.mk.injEq]
        refine ⟨List.ext_getElem? fun j => ?_, trivial, trivial, trivial,
          trivial, trivial, trivial⟩
        by_cases hj : j = pc.idx
        · subst hj
          rw [List.getElem?_set_self (by simp only [List.length_set]; exact hpl),
            board_promote_roundtrip _ _ _ h64 hsrc hdst hhas hnot,
            List.getD_eq_getElem?_getD, List.getElem?_eq_getElem hpl]
          rfl
        · by_cases hj2 : j = cp.idx
          · subst hj2
            rw [List.getElem?_set_ne (show pc.idx ≠ cp.idx from Ne.symm hcne),
              List.getElem?_set_self (by simp only [List.length_set]; exact hcl),
              bbSet_bbClear_cancel _ _ hc64 hdst hchas,
              List.getD_eq_getElem?_getD, List.getElem?_eq_getElem hcl]
            rfl
          · by_cases hj3 : j = pp.idx
            · subst hj3
              rw [List.getElem?_set_ne (show pc.idx ≠ pp.idx from Ne.symm hppne),
                List.getElem?_set_ne (show cp.idx ≠ pp.idx from hcppne),
                List.getElem?_set_self (by simp only [List.length_set]; exact hppl),
                bbClear_bbSet_cancel _ _ hpp64 hdst hppnot,
                List.getD_eq_getElem?_getD, List.getElem?_eq_getElem hppl]
              rfl
            · rw [List.getElem?_set_ne (show pc.idx ≠ j from fun h => hj h.symm),
                List.getElem?_set_ne (show cp.idx ≠ j from fun h => hj2 h.symm),
                List.getElem?_set_ne (show pp.idx ≠ j from fun h => hj3 h.symm),
                List.getElem?_set_ne (show cp.idx ≠ j from fun h => hj2 h.symm),
                List.getElem?_set_ne (show pc.idx ≠ j from fun h => hj h.symm)]
  case castle =>
    have hpl : pc.idx < bbs.length := by simp at hb; omega
    have hball' : ∀ b ∈ bbs, b < 2 ^ 64 := by simpa using hball
    have h64 : bbs.getD pc.idx 0 < 2 ^ 64 := bb_mem_lt _ _ hpl hball'
    rcases tp <;> rcases ck
    case white.queenside =>
      obtain ⟨hrne, hrhas, hrnot⟩ := hkind
      simp only [Piece.new, PieceKind.toNat, Colour.toNat, castlingRookPositions,
        Nat.zero_mul, Nat.one_mul, Nat.add_zero, Nat.reduceAdd] at hrne hrhas hrnot
      have hrl : (3:Nat) < bbs.length := by simp at hb; omega
      have hr64 : bbs.getD 3 0 < 2 ^ 64 := bb_mem_lt _ _ hrl hball'
      rcases ep with _ | epLoc <;>
        simp only [makeMoveKind, castlingRookPositions,
          Position.clrPieceAt, Position.setPieceAt, Piece.new, PieceKind.toNat,
          Colour.toNat, Colour.next, Nat.zero_add, Nat.one_mul, Nat.zero_mul,
          Nat.add_zero, Nat.reduceAdd,
          Position.bb, Position.putBb, makeMoveCastling_bboards,
          makeMoveCastling_toPlay, makeMoveCastling_enPassant,
          makeMoveCastling_materialCount, makeMoveCastling_moveStack,
          Option.some_bind, undoMove, undoMoveKind, Colour.next_next] <;>
      · simp only [List.set_set, List.length_set, hpl, hrl, getD_set_self,
          getD_set_ne, hrne, Ne.symm hrne, ne_eq, not_false_iff,
          Option.some.injEq, Position.mk.injEq]
        refine ⟨List.ext_getElem? fun j => ?_, trivial, trivial, trivial,
          trivial, trivial, trivial⟩
        by_cases hj : j = pc.idx
        · subst hj
          rw [List.getElem?_set_self (by simp only [List.length_set]; exact hpl),
            board_mover_roundtrip _ _ _ h64 hsrc hdst hhas hnot,
            List.getD_eq_getElem?_getD, List.getElem?_eq_getElem hpl]
          rfl
        · by_cases hj2 : j = 3
          · subst hj2
            rw [List.getElem?_set_ne (Ne.symm hrne),
              List.getElem?_set_self (by simp only [List.length_set]; exact hrl),
              board_rook_roundtrip _ _ _ hr64 (by decide) (by decide)
                (by decide) hrhas hrnot,
              List.getD_eq_getElem?_getD, List.getElem?_eq_getElem hrl]
            rfl
          · rw [List.getElem?_set_ne (show pc.idx ≠ j from fun h => hj h.symm),
              List.getElem?_set_ne (show (3:Nat) ≠ j from fun h => hj2 h.symm),
              List.getElem?_set_ne (show pc.idx ≠ j from fun h => hj h.symm),
              List.getElem?_set_ne (show (3:Nat) ≠ j from fun h => hj2 h.symm),
              List.getElem?_set_ne (show pc.idx ≠ j from fun h => hj h.symm)]
    case white.kingside =>
      obtain ⟨hrne, hrhas, hrnot⟩ := hkind
      simp only [Piece.new, PieceKind.toNat, Colour.toNat, castlingRookPositions,
        Nat.zero_mul, Nat.one_mul, Nat.add_zero, Nat.reduceAdd] at hrne hrhas hrnot
      have hrl : (3:Nat) < bbs.length := by simp at hb; omega
      have hr64 : bbs.getD 3 0 < 2 ^ 64 := bb_mem_lt _ _ hrl hball'
      rcases ep with _ | epLoc <;>
        simp only [makeMoveKind, castlingRookPositions,
          Position.clrPieceAt, Position.setPieceAt, Piece.new, PieceKind.toNat,
          Colour.toNat, Colour.next, Nat.zero_add, Nat.one_mul, Nat.zero_mul,
          Nat.add_zero, Nat.reduceAdd,
          Position.bb, Position.putBb, makeMoveCastling_bboards,
          makeMoveCastling_toPlay, makeMoveCastling_enPassant,
          makeMoveCastling_materialCount, makeMoveCastling_moveStack,
          Option.some_bind, undoMove, undoMoveKind, Colour.next_next] <;>
      · simp only [List.set_set, List.length_set, hpl, hrl, getD_set_self,
          getD_set_ne, hrne, Ne.symm hrne, ne_eq, not_false_iff,
          Option.some.injEq, Position.mk.injEq]
        refine ⟨List.ext_getElem? fun j => ?_, trivial, trivial, trivial,
          trivial, trivial, trivial⟩
        by_cases hj : j = pc.idx
        · subst hj
          rw [List.getElem?_set_self (by simp only [List.length_set]; exact hpl),
            board_mover_roundtrip _ _ _ h64 hsrc hdst hhas hnot,
            List.getD_eq_getElem?_getD, List.getElem?_eq_getElem hpl]
          rfl
        · by_cases hj2 : j = 3
          · subst hj2
            rw [List.getElem?_set_ne (Ne.symm hrne),
              List.getElem?_set_self (by simp only [List.length_set]; exact hrl),
              board_rook_roundtrip _ _ _ hr64 (by decide) (by decide)
                (by decide) hrhas hrnot,
              List.getD_eq_getElem?_getD, List.getElem?_eq_getElem hrl]
            rfl
          · rw [List.getElem?_set_ne (show pc.idx ≠ j from fun h => hj h.symm),
              List.getElem?_set_ne (show (3:Nat) ≠ j from fun h => hj2 h.symm),
              List.getElem?_set_ne (show pc.idx ≠ j from fun h => hj h.symm),
              List.getElem?_set_ne (show (3:Nat) ≠ j from fun h => hj2 h.symm),
              List.getElem?_set_ne (show pc.idx ≠ j from fun h => hj h.symm)]
    case black.queenside =>
      obtain ⟨hrne, hrhas, hrnot⟩ := hkind
      simp only [Piece.new, PieceKind.toNat, Colour.toNat, castlingRookPositions,
        Nat.zero_mul, Nat.one_mul, Nat.add_zero, Nat.reduceAdd] at hrne hrhas hrnot
      have hrl : (9:Nat) < bbs.length := by simp at hb; omega
      have hr64 : bbs.getD 9 0 < 2 ^ 64 := bb_mem_lt _ _ hrl hball'
      rcases ep with _ | epLoc <;>
        simp only [makeMoveKind, castlingRookPositions,
          Position.clrPieceAt, Position.setPieceAt, Piece.new, PieceKind.toNat,
          Colour.toNat, Colour.next, Nat.zero_add, Nat.one_mul, Nat.zero_mul,
          Nat.add_zero, Nat.reduceAdd,
          Position.bb, Position.putBb, makeMoveCastling_bboards,
          makeMoveCastling_toPlay, makeMoveCastling_enPassant,
          makeMoveCastling_materialCount, makeMoveCastling_moveStack,
          Option.some_bind, undoMove, undoMoveKind, Colour.next_next] <;>
      · simp only [List.set_set, List.length_set, hpl, hrl, getD_set_self,
          getD_set_ne, hrne, Ne.symm hrne, ne_eq, not_false_iff,
          Option.some.injEq, Position.mk.injEq]
        refine ⟨List.ext_getElem? fun j => ?_, trivial, trivial, trivial,
          trivial, trivial, trivial⟩
        by_cases hj : j = pc.idx
        · subst hj
          rw [List.getElem?_set_self (by simp only [List.length_set]; exact hpl),
            board_mover_roundtrip _ _ _ h64 hsrc hdst hhas hnot,
            List.getD_eq_getElem?_getD, List.getElem?_eq_getElem hpl]
          rfl
        · by_cases hj2 : j = 9
          · subst hj2
            rw [List.getElem?_set_ne (Ne.symm hrne),
              List.getElem?_set_self (by simp only [List.length_set]; exact hrl),
              board_rook_roundtrip _ _ _ hr64 (by decide) (by decide)
                (by decide) hrhas hrnot,
              List.getD_eq_getElem?_getD, List.getElem?_eq_getElem hrl]
            rfl
          · rw [List.getElem?_set_ne (show pc.idx ≠ j from fun h => hj h.symm),
              List.getElem?_set_ne (show (9:Nat) ≠ j from fun h => hj2 h.symm),
              List.getElem?_set_ne (show pc.idx ≠ j from fun h => hj h.symm),
              List.getElem?_set_ne (show (9:Nat) ≠ j from fun h => hj2 h.symm),
              List.getElem?_set_ne (show pc.idx ≠ j from fun h => hj h.symm)]
    case black.kingside =>
      obtain ⟨hrne, hrhas, hrnot⟩ := hkind
      simp only [Piece.new, PieceKind.toNat, Colour.toNat, castlingRookPositions,
        Nat.zero_mul, Nat.one_mul, Nat.add_zero, Nat.reduceAdd] at hrne hrhas hrnot
      have hrl : (9:Nat) < bbs.length := by simp at hb; omega
      have hr64 : bbs.getD 9 0 < 2 ^ 64 := bb_mem_lt _ _ hrl hball'
      rcases ep with _ | epLoc <;>
        simp only [makeMoveKind, castlingRookPositions,
          Position.clrPieceAt, Position.setPieceAt, Piece.new, PieceKind.toNat,
          Colour.toNat, Colour.next, Nat.zero_add, Nat.one_mul, Nat.zero_mul,
          Nat.add_zero, Nat.reduceAdd,
          Position.bb, Position.putBb, makeMoveCastling_bboards,
          makeMoveCastling_toPlay, makeMoveCastling_enPassant,
          makeMoveCastling_materialCount, makeMoveCastling_moveStack,
          Option.some_bind, undoMove, undoMoveKind, Colour.next_next] <;>
      · simp only [List.set_set, List.length_set, hpl, hrl, getD_set_self,
          getD_set_ne, hrne, Ne.symm hrne, ne_eq, not_false_iff,
          Option.some.injEq, Position.mk.injEq]
        refine ⟨List.ext_getElem? fun j => ?_, trivial, trivial, trivial,
          trivial, trivial, trivial⟩
        by_cases hj : j = pc.idx
        · subst hj
          rw [List.getElem?_set_self (by simp only [List.length_set]; exact hpl),
            board_mover_roundtrip _ _ _ h64 hsrc hdst hhas hnot,
            List.getD_eq_getElem?_getD, List.getElem?_eq_getElem hpl]
          rfl
        · by_cases hj2 : j = 9
          · subst hj2
            rw [List.getElem?_set_ne (Ne.symm hrne),
              List.getElem?_set_self (by simp only [List.length_set]; exact hrl),
              board_rook_roundtrip _ _ _ hr64 (by decide) (by decide)
                (by decide) hrhas hrnot,
              List.getD_eq_getElem?_getD, List.getElem?_eq_getElem hrl]
            rfl
          · rw [List.getElem?_set_ne (show pc.idx ≠ j from fun h => hj h.symm),
              List.getElem?_set_ne (show (9:Nat) ≠ j from fun h => hj2 h.symm),
              List.getElem?_set_ne (show pc.idx ≠ j from fun h => hj h.symm),
              List.getElem?_set_ne (show (9:Nat) ≠ j from fun h => hj2 h.symm),
              List.getElem?_set_ne (show pc.idx ≠ j from fun h => hj h.symm)]



/-- Witness for C1: the make/undo roundtrip applied at the standard starting
position to the pawn move e2–e3, under an all-zero key table. -/
theorem make_undo_roundtrip_witness :
    (makeMove ⟨fun _ _ => 0, 0, fun _ => 0, fun _ => 0⟩ defaultPosition
        ⟨Piece.new .pawn .white, 12, 20, none, .normal⟩).bind
      (undoMove ⟨fun _ _ => 0, 0, fun _ => 0, fun _ => 0⟩) =
    some defaultPosition :=
  make_undo_roundtrip _ _ _ (by decide) (by decide)
    ⟨by decide, by decide, by decide, by decide, by decide, by decide,
     fun cp h => nomatch h⟩

theorem makeMoveKind_materialCount (z : Zobrist) (p q : Position) (m : Move)
    (h : makeMoveKind z p m = some q) : q.materialCount = p.materialCount := by
  unfold makeMoveKind at h
  rcases m with ⟨pc, src, dst, cap, kind⟩
  rcases kind <;> simp only [] at h
  case normal =>
    rcases cap <;> simp only [Option.some.injEq] at h <;> subst h <;> rfl
  case doublePPush =>
    rcases hc : pc.colour <;> simp only [hc] at h
    · rcases h1 : locSouth dst with _ | v <;> rw [h1] at h <;>
        simp only [Option.some.injEq] at h
      · cases h
      · subst h; rfl
    · rcases h1 : locNorth dst with _ | v <;> rw [h1] at h <;>
        simp only [Option.some.injEq] at h
      · cases h
      · subst h; rfl
  case enPassant =>
    rcases htp : p.toPlay <;> simp only [htp] at h
    · rcases h1 : locSouth dst with _ | v <;> rw [h1] at h <;>
        simp only [Option.some.injEq] at h
      · cases h
      · subst h; rfl
    · rcases h1 : locNorth dst with _ | v <;> rw [h1] at h <;>
        simp only [Option.some.injEq] at h
      · cases h
      · subst h; rfl
  case promote =>
    rcases cap <;> simp only [Option.some.injEq] at h <;> subst h <;> rfl
  case castle =>
    simp only [Option.some.injEq] at h
    subst h
    rfl

theorem undoMoveKind_materialCount (z : Zobrist) (p q : Position) (m : Move)
    (h : undoMoveKind z p m = some q) : q.materialCount = p.materialCount := by
  unfold undoMoveKind at h
  rcases m with ⟨pc, src, dst, cap, kind⟩
  rcases kind <;> simp only [Option.some.injEq] at h
  case normal =>
    subst h; rcases cap <;> rfl
  case doublePPush =>
    subst h; rfl
  case enPassant =>
    rcases htp : p.toPlay <;>
      simp only [Position.clrPieceAt, htp] at h
    · rcases h1 : locSouth dst with _ | v <;> rw [h1] at h <;>
        simp only [Option.some.injEq] at h
      · cases h
      · subst h; rfl
    · rcases h1 : locNorth dst with _ | v <;> rw [h1] at h <;>
        simp only [Option.some.injEq] at h
      · cases h
      · subst h; rfl
  case promote =>
    subst h; rcases cap <;> rfl
  case castle =>
    subst h; rfl

/-- C10: `make_move` and `undo_move` never touch `material_count`, and the
builder assigns it by counting the pieces of every kind — kings included,
hence 32 for the starting position rather than 30. -/
theorem material_count_frame :
    (∀ (z : Zobrist) (p : Position) (m : Move) (p' : Position),
        makeMove z p m = some p' → p'.materialCount = p.materialCount) ∧
    (∀ (z : Zobrist) (p p' : Position),
        undoMove z p = some p' → p'.materialCount = p.materialCount) ∧
    defaultPosition.materialCount = 32 := by
  refine ⟨?_, ?_, by decide⟩
  · intro z p m p' h
    unfold makeMove at h
    split at h
    · cases h
    · rcases hep : p.enPassant with _ | epLoc <;> simp only [hep] at h
      · rcases hk : makeMoveKind z (Position.clrPieceAt z p m.piece m.src) m
          with _ | q <;> rw [hk] at h
        · cases h
        · simp only [Option.some.injEq] at h
          subst h
          simp only [makeMoveCastling_materialCount]
          have h2 := makeMoveKind_materialCount _ _ _ _ hk
          simpa [Position.clrPieceAt] using h2
      · rcases hk : makeMoveKind z (Position.clrPieceAt z
            { p with hash := p.hash ^^^ z.epKey epLoc, enPassant := none }
            m.piece m.src) m with _ | q <;> rw [hk] at h
        · cases h
        · simp only [Option.some.injEq] at h
          subst h
          simp only [makeMoveCastling_materialCount]
          have h2 := makeMoveKind_materialCount _ _ _ _ hk
          simpa [Position.clrPieceAt] using h2
  · intro z p p' h
    unfold undoMove at h
    rcases hstk : p.moveStack with _ | ⟨undo, rest⟩ <;> simp only [hstk] at h
    · cases h
    · rcases hk : (undoMoveKind z
          { p with moveStack := rest, toPlay := p.toPlay.next }
          undo.mmove) with _ | q <;> rw [hk] at h
      · cases h
      · simp only [Option.some.injEq] at h
        subst h
        have h2 := undoMoveKind_materialCount _ _ _ _ hk
        simpa [Position.setPieceAt, Position.putBb] using h2

/-- Witness for C10: the frame property applied to the e2–e3 make/undo pair
at the starting position. -/
theorem material_count_frame_witness :
    ∃ p' : Position,
      makeMove ⟨fun _ _ => 0, 0, fun _ => 0, fun _ => 0⟩ defaultPosition
        ⟨Piece.new .pawn .white, 12, 20, none, .normal⟩ = some p' ∧
      p'.materialCount = defaultPosition.materialCount := by
  rcases hk : makeMove ⟨fun _ _ => 0, 0, fun _ => 0, fun _ => 0⟩ defaultPosition
      ⟨Piece.new .pawn .white, 12, 20, none, .normal⟩ with _ | q
  · exact absurd hk (by decide)
  · exact ⟨q, rfl, material_count_frame.1 _ _ _ _ hk⟩

/-- C2: the claim says every reachable position's incrementally-maintained
hash equals the Zobrist hash recomputed from scratch by
`Zobrist::from_position`.  This already fails at the starting position, a
reachable position (zero `make_move` calls): `PositionBuilder::build` never
initialises the hash, which stays at `Position::empty`'s `0`, while the
from-scratch hash is nonzero whenever any key of an occupied square is
nonzero — here the key table that gives the white a2-pawn's square key 1
and every other key 0 yields a from-scratch hash of 1. -/
theorem incremental_hash_not_initialised :
    defaultPosition.hash = 0 ∧
    zobristFromPosition ⟨fun _ l => if l = 8 then 1 else 0, 0, fun _ => 0, fun _ => 0⟩
        defaultPosition = 1 ∧
    zobristFromPosition ⟨fun _ l => if l = 8 then 1 else 0, 0, fun _ => 0, fun _ => 0⟩
        defaultPosition ≠ defaultPosition.hash := by
  refine ⟨rfl, by decide, by decide⟩

/-- C8: the claim says `from_fen` returns a position whose castling rights
match the castling-availability field and whose en-passant target matches
the en-passant field.  The module's `parse_fen` stops after the
side-to-move field and discards the rest, and the builder starts from
`Position::empty`, so the well-formed FEN below — the position after
1.e4 with castling availability `KQkq` and en-passant target `e3`
(square 20) — parses successfully but comes back with no castling rights
at all and no en-passant target. -/
theorem from_fen_ignores_castling_and_ep :
    (fromFen
        ("rnbqkbnr/pppppppp/8/8/4P3/8/PPPP1PPP/RNBQKBNR b KQkq e3 0 1".toList)).map
        (fun p => (p.castlingRights, p.enPassant))
      = some (CastlingRights.empty, none) ∧
    CastlingRights.empty ≠ CastlingRights.dfl := by
  exact ⟨by decide, by decide⟩

/-- C3: the claim says that with an en-passant target set and a
side-to-move pawn attacking it, the generator emits an en-passant capture
to that square and applying it removes the captured pawn from behind the
destination.  In `epBugPos` (white pawn a5, black pawn b5, target b6) the
generator does emit the a5–b6 move — but `calc_pawn_moves` pushes it as
`mgen.with_dst(ep_loc).build()`, a plain `Normal` move with no capture
(the `is_en_passant_capture` builder method is never applied), so
`make_move` takes its `Normal` branch: the source square empties, the
white pawn lands on b6, and the black pawn stays on b5 instead of being
removed. -/
theorem en_passant_capture_not_applied :
    (calcPawnMoves epBugPos (blockersOf epBugPos) 32).filter (fun m => m.dst = 41)
      = [{ piece := Piece.new .pawn .white, src := 32, dst := 41,
           capture := none, kind := .normal }] ∧
    (makeMove ⟨fun _ _ => 0, 0, fun _ => 0, fun _ => 0⟩ epBugPos
        { piece := Piece.new .pawn .white, src := 32, dst := 41,
          capture := none, kind := .normal }).map
        (fun q => (bbHas (q.bb (Piece.new .pawn .white)) 32,
                   bbHas (q.bb (Piece.new .pawn .white)) 41,
                   bbHas (q.bb (Piece.new .pawn .black)) 33))
      = some (false, true, true) := by
  exact ⟨by decide, by decide⟩

/-- C6: the transposition-table probe of `Search::search`.  A `Score`
(exact) entry holding `±MATE` is returned with no depth condition; every
other return is gated on `depth ≤ entry.depth`: a `Score` entry returns
its eval, an `Alpha` (upper-bound) entry returns `α` exactly when its eval
is `≤ α`, a `Beta` (lower-bound) entry returns `β` exactly when its eval
is `≥ β`, and an entry whose stored depth is below the current depth
produces no return at all unless it is a `±MATE` exact entry. -/
theorem ttable_probe_rules (e : TEntry) (alpha beta : Int) (depth : Nat) :
    (∀ m, e.kind = .score m → (e.eval = -MATE ∨ e.eval = MATE) →
        ttProbe (some e) alpha beta depth = some e.eval) ∧
    (∀ m, e.kind = .score m → ¬(e.eval = -MATE ∨ e.eval = MATE) →
        depth ≤ e.depth → ttProbe (some e) alpha beta depth = some e.eval) ∧
    (e.kind = .alpha → depth ≤ e.depth →
        ttProbe (some e) alpha beta depth
          = if e.eval ≤ alpha then some alpha else none) ∧
    (e.kind = .beta → depth ≤ e.depth →
        ttProbe (some e) alpha beta depth
          = if beta ≤ e.eval then some beta else none) ∧
    (¬(e.kind.isScore = true ∧ (e.eval = -MATE ∨ e.eval = MATE)) →
        e.depth < depth → ttProbe (some e) alpha beta depth = none) := by
  obtain ⟨h, d, k, v⟩ := e
  refine ⟨?_, ?_, ?_, ?_, ?_⟩
  · rintro m hk hm
    cases hk
    simp [ttProbe, EntryKind.isScore, hm]
  · rintro m hk hm hd
    cases hk
    simp only [ttProbe, EntryKind.isScore]
    rw [if_neg (by simpa using hm), if_pos (by simpa using hd)]
  · rintro hk hd
    cases hk
    simp only [ttProbe, EntryKind.isScore]
    rw [if_neg (by simp), if_pos (by simpa using hd)]
  · rintro hk hd
    cases hk
    simp only [ttProbe, EntryKind.isScore]
    rw [if_neg (by simp), if_pos (by simpa using hd)]
  · rintro hm hd
    simp only [ttProbe, EntryKind.isScore]
    rw [if_neg (by simpa using hm), if_neg (not_le.mpr (by simpa using hd))]

/-- Witness for C6: a `±MATE` exact entry is returned although its stored
depth 0 is below the probe depth 5. -/
theorem ttable_probe_rules_witness :
    ttProbe
        (some ⟨0, 0, .score ⟨Piece.new .pawn .white, 8, 16, none, .normal⟩, MATE⟩)
        0 1 5 = some MATE :=
  (ttable_probe_rules
      ⟨0, 0, .score ⟨Piece.new .pawn .white, 8, 16, none, .normal⟩, MATE⟩ 0 1 5).1
    ⟨Piece.new .pawn .white, 8, 16, none, .normal⟩ rfl (Or.inr rfl)

/-- With the stop flag unset, both `Search::quiescence` and its capture
loop return `α` unchanged whenever called with `α = β`: every branch
either returns `β = α` directly or re-enters with the same equal window. -/
theorem quiescence_at_beta (n : Nat) :
    (∀ (t : QNode) (b : Int) (nodes : Nat),
        (quiescenceAux n false t b b nodes).1 = b) ∧
    (∀ (l : List (Bool × QNode)) (b : Int) (nodes : Nat),
        (quiescenceLoop n false l b b nodes).1 = b) := by
  induction n with
  | zero =>
    have hA : ∀ (t : QNode) (b : Int) (nodes : Nat),
        (quiescenceAux 0 false t b b nodes).1 = b := by
      intro t b nodes; simp [quiescenceAux]
    refine ⟨hA, ?_⟩
    intro l
    induction l with
    | nil => intro b nodes; simp [quiescenceLoop]
    | cons x rest ih =>
      intro b nodes
      obtain ⟨inChk, child⟩ := x
      by_cases hc : inChk
      · subst hc; simpa only [quiescenceLoop, if_pos] using ih b (nodes + 1)
      · simp only [quiescenceLoop, if_neg hc, hA child (-b) (nodes + 1)]
        rw [if_pos (by simp)]
  | succ n ih =>
    have hA : ∀ (t : QNode) (b : Int) (nodes : Nat),
        (quiescenceAux (n + 1) false t b b nodes).1 = b := by
      intro t b nodes
      simp only [quiescenceAux]
      by_cases hs : (if t.toPlay = .white then t.eval else -t.eval) > b
      · rw [if_pos hs]
      · rw [if_neg hs, if_neg (by simp), if_neg (by simp [not_lt.1 hs, not_lt])]
        exact ih.2 t.capMoves b nodes
    refine ⟨hA, ?_⟩
    intro l
    induction l with
    | nil => intro b nodes; simp [quiescenceLoop]
    | cons x rest ih2 =>
      intro b nodes
      obtain ⟨inChk, child⟩ := x
      by_cases hc : inChk
      · subst hc; simpa only [quiescenceLoop, if_pos] using ih2 b (nodes + 1)
      · simp only [quiescenceLoop, if_neg hc, hA child (-b) (nodes + 1)]
        rw [if_pos (by simp)]

/-- C7: with the stop flag unset and a window `α < β`, whenever the
stand-pat value — the static evaluation seen from the side to move — is at
least `β`, `Search::quiescence` returns `β`: directly by the beta cutoff
when stand-pat exceeds `β`, and through the capture loop run at the
collapsed window `α = β` when stand-pat equals `β` exactly (the source
compares with `>` rather than `≥`, but the returned value is `β` either
way). -/
theorem quiescence_standpat_cutoff (fuel : Nat) (t : QNode) (alpha beta : Int)
    (nodes : Nat) (hab : alpha < beta)
    (hsp : beta ≤ (if t.toPlay = .white then t.eval else -t.eval)) :
    (quiescenceAux (fuel + 1) false t alpha beta nodes).1 = beta := by
  simp only [quiescenceAux]
  by_cases hgt : (if t.toPlay = .white then t.eval else -t.eval) > beta
  · rw [if_pos hgt]
  · have heq : (if t.toPlay = .white then t.eval else -t.eval) = beta :=
      le_antisymm (not_lt.1 hgt) hsp
    rw [if_neg hgt, if_neg (by simp), if_pos (by omega), heq]
    exact (quiescence_at_beta fuel).2 t.capMoves beta nodes

/-- Witness for C7: a node whose static evaluation 5 meets `β = 3` with
window `(0, 3)` returns exactly `β`. -/
theorem quiescence_standpat_cutoff_witness :
    (quiescenceAux 1 false (QNode.node 5 .white []) 0 3 0).1 = 3 :=
  quiescence_standpat_cutoff 0 (QNode.node 5 .white []) 0 3 0 (by decide)
    (by decide)

/-- C9 counterexample: with ten seconds remaining — far above the
five-millisecond floor — five completed iterations whose scores all equal
0 but whose best moves are five pairwise different moves still make
`iter_complete` return `YieldResult`: the source yields when the score
range is small **or** the best moves agree, not only when both hold. -/
theorem early_yield_without_move_agreement :
    (iterComplete id id
        ⟨some 10000000000, none, [0, 0, 0, 0],
         [{ piece := Piece.new .pawn .white, src := 8, dst := 16,
            capture := none, kind := .normal },
          { piece := Piece.new .pawn .white, src := 8, dst := 17,
            capture := none, kind := .normal },
          { piece := Piece.new .pawn .white, src := 8, dst := 18,
            capture := none, kind := .normal },
          { piece := Piece.new .pawn .white, src := 8, dst := 19,
            capture := none, kind := .normal }]⟩
        0
        { piece := Piece.new .pawn .white, src := 8, dst := 20,
          capture := none, kind := .normal }
        0).map (fun r => (r.1, r.2.timeLeft, r.2.bestMoves.length))
      = some (.yieldResult, some 10000000000, 5) ∧
    allEqual
        ((([{ piece := Piece.new .pawn .white, src := 8, dst := 16,
              capture := none, kind := .normal },
            { piece := Piece.new .pawn .white, src := 8, dst := 17,
              capture := none, kind := .normal },
            { piece := Piece.new .pawn .white, src := 8, dst := 18,
              capture := none, kind := .normal },
            { piece := Piece.new .pawn .white, src := 8, dst := 19,
              capture := none, kind := .normal }] : List Move) ++
          ([{ piece := Piece.new .pawn .white, src := 8, dst := 20,
              capture := none, kind := .normal }] : List Move)).reverse.take 5)
      = false ∧
    fiveMillis ≤ 10000000000 := by
  refine ⟨by decide, by decide, by decide⟩

/-- Any `YieldResult` coming out of the post-floor tail of
`TimeMan::iter_complete` was produced by the score-range branch or the
best-move-agreement branch. -/
theorem iterCompleteRest_yield (mul35 mul15 : Nat → Nat) (tl : Option Nat)
    (score : Int) (scores : List Int) (bestMoves : List Move) (depth : Nat)
    (h : iterCompleteRest mul35 mul15 tl score scores bestMoves depth
          = .yieldResult) :
    statsRange (scores.reverse.take 5) < 20 ∨
    allEqual (bestMoves.reverse.take 5) = true := by
  simp only [iterCompleteRest] at h
  by_cases h5 : depth < 5
  · rw [if_pos h5] at h; simp at h
  · rw [if_neg h5] at h
    by_cases hr : statsRange (scores.reverse.take 5) < 20
    · exact Or.inl hr
    · rw [if_neg hr] at h
      by_cases ha : allEqual (bestMoves.reverse.take 5) = true
      · exact Or.inr ha
      · rw [if_neg (by simpa using ha)] at h
        simp at h

/-- C9, amended: when `iter_complete` skips an iteration early — returning
`YieldResult` with the remaining time still at or above the five-millisecond
floor — the last five recorded iterations (including the one just pushed)
have a score range below the small tolerance of 20 centipawns **or** all
agreed on the same best move; the source requires only one of the two
conditions, not both as claimed. -/
theorem early_yield_convergence (mul35 mul15 : Nat → Nat) (t : TimeMan)
    (score : Int) (bestMove : Move) (timeTaken : Nat) (act : TimeAction)
    (t' : TimeMan)
    (h : iterComplete mul35 mul15 t score bestMove timeTaken = some (act, t'))
    (hfloor : ∀ d, t'.timeLeft = some d → fiveMillis ≤ d)
    (hact : act = .yieldResult) :
    statsRange ((t.scores ++ [score]).reverse.take 5) < 20 ∨
    allEqual ((t.bestMoves ++ [bestMove]).reverse.take 5) = true := by
  subst hact
  simp only [iterComplete] at h
  by_cases hfull : t.scores.length ≥ 20 ∨ t.bestMoves.length ≥ 20
  · rw [if_pos hfull] at h; exact absurd h (by simp)
  · rw [if_neg hfull] at h
    rcases htl : t.timeLeft with _ | d <;> simp only [htl] at h
    · simp only [Option.some.injEq, Prod.mk.injEq] at h
      exact iterCompleteRest_yield _ _ _ _ _ _ _ h.1
    · by_cases hover : timeTaken > d
      · rw [if_pos hover] at h; exact absurd h (by simp)
      · rw [if_neg hover] at h
        by_cases hlow : d - timeTaken < fiveMillis
        · rw [if_pos hlow] at h
          simp only [Option.some.injEq, Prod.mk.injEq, true_and] at h
          have ht' : t'.timeLeft = some (d - timeTaken) :=
            congrArg TimeMan.timeLeft h.symm
          have := hfloor (d - timeTaken) ht'
          omega
        · rw [if_neg hlow] at h
          simp only [Option.some.injEq, Prod.mk.injEq] at h
          exact iterCompleteRest_yield _ _ _ _ _ _ _ h.1

/-- Witness for the amended C9: five agreeing iterations with equal scores
and untimed search trigger the early yield, and the amended theorem
certifies the convergence disjunction for them. -/
theorem early_yield_convergence_witness :
    statsRange ((([0, 0, 0, 0] : List Int) ++ [0]).reverse.take 5) < 20 ∨
    allEqual
        ((([{ piece := Piece.new .pawn .white, src := 8, dst := 16,
              capture := none, kind := .normal },
            { piece := Piece.new .pawn .white, src := 8, dst := 16,
              capture := none, kind := .normal },
            { piece := Piece.new .pawn .white, src := 8, dst := 16,
              capture := none, kind := .normal },
            { piece := Piece.new .pawn .white, src := 8, dst := 16,
              capture := none, kind := .normal }] : List Move) ++
          ([{ piece := Piece.new .pawn .white, src := 8, dst := 16,
              capture := none, kind := .normal }] : List Move)).reverse.take 5)
      = true :=
  early_yield_convergence id id
    ⟨none, none, [0, 0, 0, 0],
     [{ piece := Piece.new .pawn .white, src := 8, dst := 16,
        capture := none, kind := .normal },
      { piece := Piece.new .pawn .white, src := 8, dst := 16,
        capture := none, kind := .normal },
      { piece := Piece.new .pawn .white, src := 8, dst := 16,
        capture := none, kind := .normal },
      { piece := Piece.new .pawn .white, src := 8, dst := 16,
        capture := none, kind := .normal }]⟩
    0
    { piece := Piece.new .pawn .white, src := 8, dst := 16,
      capture := none, kind := .normal }
    0 TimeAction.yieldResult
    ⟨none, none, [0, 0, 0, 0, 0],
     [{ piece := Piece.new .pawn .white, src := 8, dst := 16,
        capture := none, kind := .normal },
      { piece := Piece.new .pawn .white, src := 8, dst := 16,
        capture := none, kind := .normal },
      { piece := Piece.new .pawn .white, src := 8, dst := 16,
        capture := none, kind := .normal },
      { piece := Piece.new .pawn .white, src := 8, dst := 16,
        capture := none, kind := .normal },
      { piece := Piece.new .pawn .white, src := 8, dst := 16,
        capture := none, kind := .normal }]⟩
    (by decide) (fun d hd => Option.noConfusion hd) rfl

/-- C5: `calc_king_moves` emits a kingside (resp. queenside) castling move
for the side to move exactly when the four conditions hold: the castling
right for that side and colour is set, the squares between king and rook
(the fixed blocker mask f1/g1 resp. b1/c1/d1, per colour) are all empty,
the crossing square (f1 resp. d1, per colour) is not attacked by any
opponent piece, and the king is not currently in check.  The position is
assumed to hold a king of the side to move (the source `unwrap`s its
square inside `in_check`). -/
theorem castling_emission (p : Position) (src : Nat)
    (hking : p.bb (Piece.new .king p.toPlay) ≠ 0) :
    ((∃ m ∈ calcKingMoves p src, m.kind = MoveType.castle .kingside) ↔
      ((p.castlingRights.get p.toPlay).kingSide ∧
       BLOCKER_MASK_KINGSIDE p.toPlay &&& blockersOf p = 0 ∧
       ¬ isLocUnderAttack p (blockersOf p) (CHECK_SQ_KINGSIDE p.toPlay)
           p.toPlay.next ∧
       ¬ inCheck p (blockersOf p) p.toPlay)) ∧
    ((∃ m ∈ calcKingMoves p src, m.kind = MoveType.castle .queenside) ↔
      ((p.castlingRights.get p.toPlay).queenSide ∧
       BLOCKER_MASK_QUEENSIDE p.toPlay &&& blockersOf p = 0 ∧
       ¬ isLocUnderAttack p (blockersOf p) (CHECK_SQ_QUEENSIDE p.toPlay)
           p.toPlay.next ∧
       ¬ inCheck p (blockersOf p) p.toPlay)) := by
  constructor
  · constructor
    · rintro ⟨m, hm, hk⟩
      simp only [calcKingMoves, List.mem_append, List.mem_flatMap,
        List.mem_map] at hm
      rcases hm with ((⟨ob, hob, dst, hdst, rfl⟩ | ⟨dst, hdst, rfl⟩) | hm) | hm
      · simp at hk
      · simp at hk
      · rcases hc : decide ((p.castlingRights.get p.toPlay).kingSide ∧
            BLOCKER_MASK_KINGSIDE p.toPlay &&& blockersOf p = 0 ∧
            ¬ isLocUnderAttack p (blockersOf p) (CHECK_SQ_KINGSIDE p.toPlay)
                p.toPlay.next ∧
            ¬ inCheck p (blockersOf p) p.toPlay) with _ | _
        · rw [if_neg (of_decide_eq_false hc)] at hm
          simp at hm
        · exact of_decide_eq_true hc
      · rcases hc : decide ((p.castlingRights.get p.toPlay).queenSide ∧
            BLOCKER_MASK_QUEENSIDE p.toPlay &&& blockersOf p = 0 ∧
            ¬ isLocUnderAttack p (blockersOf p) (CHECK_SQ_QUEENSIDE p.toPlay)
                p.toPlay.next ∧
            ¬ inCheck p (blockersOf p) p.toPlay) with _ | _
        · rw [if_neg (of_decide_eq_false hc)] at hm
          simp at hm
        · rw [if_pos (of_decide_eq_true hc)] at hm
          simp only [List.mem_singleton] at hm
          subst hm
          simp at hk
    · intro hc
      refine ⟨{ piece := Piece.new .king p.toPlay, src := src,
                dst := locRank src * 8 + 6, capture := none,
                kind := MoveType.castle .kingside }, ?_, rfl⟩
      simp only [calcKingMoves, List.mem_append]
      refine Or.inl (Or.inr ?_)
      rw [if_pos hc]
      simp
  · constructor
    · rintro ⟨m, hm, hk⟩
      simp only [calcKingMoves, List.mem_append, List.mem_flatMap,
        List.mem_map] at hm
      rcases hm with ((⟨ob, hob, dst, hdst, rfl⟩ | ⟨dst, hdst, rfl⟩) | hm) | hm
      · simp at hk
      · simp at hk
      · rcases hc : decide ((p.castlingRights.get p.toPlay).kingSide ∧
            BLOCKER_MASK_KINGSIDE p.toPlay &&& blockersOf p = 0 ∧
            ¬ isLocUnderAttack p (blockersOf p) (CHECK_SQ_KINGSIDE p.toPlay)
                p.toPlay.next ∧
            ¬ inCheck p (blockersOf p) p.toPlay) with _ | _
        · rw [if_neg (of_decide_eq_false hc)] at hm
          simp at hm
        · rw [if_pos (of_decide_eq_true hc)] at hm
          simp only [List.mem_singleton] at hm
          subst hm
          simp at hk
      · rcases hc : decide ((p.castlingRights.get p.toPlay).queenSide ∧
            BLOCKER_MASK_QUEENSIDE p.toPlay &&& blockersOf p = 0 ∧
            ¬ isLocUnderAttack p (blockersOf p) (CHECK_SQ_QUEENSIDE p.toPlay)
                p.toPlay.next ∧
            ¬ inCheck p (blockersOf p) p.toPlay) with _ | _
        · rw [if_neg (of_decide_eq_false hc)] at hm
          simp at hm
        · exact of_decide_eq_true hc
    · intro hc
      refine ⟨{ piece := Piece.new .king p.toPlay, src := src,
                dst := locRank src * 8 + 2, capture := none,
                kind := MoveType.castle .queenside }, ?_, rfl⟩
      simp only [calcKingMoves, List.mem_append]
      refine Or.inr ?_
      rw [if_pos hc]
      simp

/-- Witness for C5: in the bare castling position (king e1, rooks a1/h1,
full rights, nothing else on the board) the kingside castling move is
emitted. -/
theorem castling_emission_witness :
    ∃ m ∈ calcKingMoves castlePos 4, m.kind = MoveType.castle .kingside :=
  (castling_emission castlePos 4 (by decide)).1.mpr
    ⟨by decide, by decide, by decide, by decide⟩

/-- `subsetsOf` enumerates `2 ^ n` subsets of an `n`-bit list. -/
theorem subsetsOf_length (l : List Nat) : (subsetsOf l).length = 2 ^ l.length := by
  induction l with
  | nil => rfl
  | cons b rest ih =>
    simp only [subsetsOf, List.length_append, List.length_map, ih,
      List.length_cons, pow_succ]
    omega

/-- Any bitboard whose set bits all come from the list `l` is one of the
subsets enumerated by `subsetsOf l`. -/
theorem mem_subsetsOf : ∀ (l : List Nat) (B : Nat),
    (∀ i, B.testBit i = true → i ∈ l) → B ∈ subsetsOf l := by
  intro l
  induction l with
  | nil =>
    intro B h
    have hB : B = 0 := by
      apply Nat.eq_of_testBit_eq
      intro i
      rw [Nat.zero_testBit]
      rcases hbi : B.testBit i with _ | _
      · rfl
      · exact absurd (h i hbi) (List.not_mem_nil i)
    subst hB
    simp [subsetsOf]
  | cons b rest ih =>
    intro B h
    simp only [subsetsOf]
    by_cases hb : B.testBit b = true
    · have hx : (B ^^^ 1 <<< b) ∈ subsetsOf rest := by
        apply ih
        intro i hi
        have hib : i ≠ b := by
          intro he
          subst he
          rw [Nat.testBit_xor, hb, Nat.one_shiftLeft,
            Nat.testBit_two_pow_self] at hi
          exact absurd hi (by simp)
        have hBi : B.testBit i = true := by
          rw [Nat.testBit_xor, Nat.one_shiftLeft,
            Nat.testBit_two_pow_of_ne (fun he => hib he.symm)] at hi
          simpa using hi
        rcases List.mem_cons.1 (h i hBi) with he | hm
        · exact absurd he hib
        · exact hm
      refine List.mem_append.2 (Or.inr (List.mem_map.2 ⟨B ^^^ 1 <<< b, hx, ?_⟩))
      apply Nat.eq_of_testBit_eq
      intro i
      rw [Nat.testBit_or, Nat.testBit_xor, Nat.one_shiftLeft]
      by_cases hib : i = b
      · subst hib
        simp [Nat.testBit_two_pow_self, hb]
      · simp [Nat.testBit_two_pow_of_ne (fun he => hib he.symm)]
    · refine List.mem_append.2 (Or.inl (ih B ?_))
      intro i hi
      rcases List.mem_cons.1 (h i hi) with he | hm
      · subst he
        exact absurd hi (by simpa using hb)
      · exact hm

/-- Reading back the slot just written in the index trie. -/
theorem BTrie.findAt_insertAt_same : ∀ (d : Nat) (t : BTrie) (key v : Nat),
    (t.insertAt d key v).findAt d key = v := by
  intro d
  induction d with
  | zero => intro t key v; rfl
  | succ d ih =>
    intro t key v
    simp only [BTrie.insertAt]
    by_cases hk : key % 2 = 0
    · rw [if_pos hk]
      simp only [BTrie.findAt]
      rw [if_pos hk]
      exact ih _ _ _
    · rw [if_neg hk]
      simp only [BTrie.findAt]
      rw [if_neg hk]
      exact ih _ _ _

/-- Writing one slot of the index trie leaves every other slot unchanged. -/
theorem BTrie.findAt_insertAt_other : ∀ (d : Nat) (t : BTrie) (key key' v : Nat),
    key < 2 ^ d → key' < 2 ^ d → key ≠ key' →
    (t.insertAt d key v).findAt d key' = t.findAt d key' := by
  intro d
  induction d with
  | zero => intro t key key' v hk hk' hne; omega
  | succ d ih =>
    intro t key key' v hk hk' hne
    have hps : (2 : Nat) ^ (d + 1) = 2 ^ d * 2 := pow_succ 2 d
    rw [hps] at hk hk'
    simp only [BTrie.insertAt]
    by_cases hp : key % 2 = 0
    · rw [if_pos hp]
      by_cases hp' : key' % 2 = 0
      · simp only [BTrie.findAt]
        rw [if_pos hp', ih _ _ _ _ (by omega) (by omega) (by omega)]
        cases t <;> simp [BTrie.findAt, hp']
      · simp only [BTrie.findAt]
        rw [if_neg hp']
        cases t <;> simp [BTrie.findAt, hp']
    · rw [if_neg hp]
      by_cases hp' : key' % 2 = 0
      · simp only [BTrie.findAt]
        rw [if_pos hp']
        cases t <;> simp [BTrie.findAt, hp']
      · simp only [BTrie.findAt]
        rw [if_neg hp', ih _ _ _ _ (by omega) (by omega) (by omega)]
        cases t <;> simp [BTrie.findAt, hp']

/-- Folding further table writes over the trie preserves a slot all the
remaining writes agree with. -/
theorem foldl_insert_keep (key val : Nat → Nat) (shift keyB vB : Nat) :
    ∀ (xs : List Nat) (t : BTrie), t.findAt shift keyB = vB →
      keyB < 2 ^ shift → (∀ x ∈ xs, key x < 2 ^ shift) →
      (∀ x ∈ xs, key x = keyB → val x = vB) →
      (xs.foldl (fun t x => t.insertAt shift (key x) (val x)) t).findAt shift keyB
        = vB := by
  intro xs
  induction xs with
  | nil => intro t ht _ _ _; simpa using ht
  | cons x rest ih =>
    intro t ht hkB hbound hcoll
    simp only [List.foldl_cons]
    apply ih
    · by_cases he : key x = keyB
      · rw [he, BTrie.findAt_insertAt_same]
        exact hcoll x (List.mem_cons_self x rest) he
      · rw [BTrie.findAt_insertAt_other shift t (key x) keyB (val x)
          (hbound x (List.mem_cons_self x rest)) hkB he]
        exact ht
    · exact hkB
    · intro y hy; exact hbound y (List.mem_cons_of_mem x hy)
    · intro y hy he; exact hcoll y (List.mem_cons_of_mem x hy) he

/-- The table built by folding writes over a list of blocker subsets reads
back the written value at the key of any listed subset, provided the keys
stay in range and colliding subsets carry the same value. -/
theorem foldl_insert_find (key val : Nat → Nat) (shift : Nat) :
    ∀ (xs : List Nat) (t : BTrie) (B : Nat), B ∈ xs →
      (∀ x ∈ xs, key x < 2 ^ shift) →
      (∀ x ∈ xs, key x = key B → val x = val B) →
      (xs.foldl (fun t x => t.insertAt shift (key x) (val x)) t).findAt shift
          (key B)
        = val B := by
  intro xs
  induction xs with
  | nil => intro t B hB; exact absurd hB (List.not_mem_nil B)
  | cons x rest ih =>
    intro t B hB hbound hcoll
    simp only [List.foldl_cons]
    rcases List.mem_cons.1 hB with he | hm
    · subst he
      apply foldl_insert_keep
      · rw [BTrie.findAt_insertAt_same]
      · exact hbound B (List.mem_cons_self B rest)
      · intro y hy; exact hbound y (List.mem_cons_of_mem B hy)
      · intro y hy he2; exact hcoll y (List.mem_cons_of_mem B hy) he2
    · apply ih _ B hm
      · intro y hy; exact hbound y (List.mem_cons_of_mem x hy)
      · intro y hy he2; exact hcoll y (List.mem_cons_of_mem x hy) he2

/-- The magic index always lands inside the `2 ^ shift` table. -/
theorem magicIdx_lt (B magic shift : Nat) (h : shift ≤ 64) :
    magicIdx B magic shift < 2 ^ shift := by
  unfold magicIdx
  rw [Nat.shiftRight_eq_div_pow,
    Nat.div_lt_iff_lt_mul (pow_pos (by norm_num) (64 - shift))]
  calc B * magic % 2 ^ 64 < 2 ^ 64 := Nat.mod_lt _ (pow_pos (by norm_num) 64)
  _ = 2 ^ shift * 2 ^ (64 - shift) := by rw [← pow_add]; congr 1; omega

/-- Every set bit of `idxUnion` is the magic index of some enumerated
blocker subset joined onto the accumulator. -/
theorem idxUnion_testBit (magic shift : Nat) :
    ∀ (l : List Nat) (acc i : Nat),
      (idxUnion magic shift l acc).testBit i = true →
      ∃ x ∈ subsetsOf l, magicIdx (acc ||| x) magic shift = i := by
  intro l
  induction l with
  | nil =>
    intro acc i h
    simp only [idxUnion, Nat.one_shiftLeft] at h
    have he : i = magicIdx acc magic shift := by
      by_contra hne
      rw [Nat.testBit_two_pow_of_ne (fun he => hne he.symm)] at h
      exact absurd h (by simp)
    exact ⟨0, by simp [subsetsOf], by rw [Nat.or_zero]; exact he.symm⟩
  | cons b rest ih =>
    intro acc i h
    simp only [idxUnion, Nat.testBit_or, Bool.or_eq_true] at h
    rcases h with h | h
    · obtain ⟨x, hx, he⟩ := ih acc i h
      exact ⟨x, by simp only [subsetsOf]; exact List.mem_append.2 (Or.inl hx), he⟩
    · obtain ⟨x, hx, he⟩ := ih (acc ||| 1 <<< b) i h
      refine ⟨x ||| 1 <<< b, ?_, ?_⟩
      · simp only [subsetsOf]
        exact List.mem_append.2 (Or.inr (List.mem_map.2 ⟨x, hx, rfl⟩))
      · rw [Nat.or_comm x (1 <<< b), ← Nat.or_assoc]
        exact he

/-- Unpacking the five components of the per-square certificate. -/
theorem magicSquareOk_spec (k : MagicKind) (sq : Nat)
    (h : magicSquareOk k sq = true) :
    occMask k sq < 2 ^ 64 ∧ maskBitsComplete (occMask k sq) = true ∧
    (bbPieces (occMask k sq)).length = (shiftsOf k).getD sq 0 ∧
    (shiftsOf k).getD sq 0 ≤ 64 ∧
    idxUnion ((magicsOf k).getD sq 0) ((shiftsOf k).getD sq 0)
        (bbPieces (occMask k sq)) 0
      = 2 ^ 2 ^ ((shiftsOf k).getD sq 0) - 1 := by
  simp only [magicSquareOk, Bool.and_eq_true, decide_eq_true_eq] at h
  exact ⟨h.1.1.1.1, h.1.1.1.2, h.1.1.2, h.1.2, h.2⟩

set_option maxHeartbeats 4000000 in
/-- The checked certificate: on all 64 squares and for both sliding kinds
the tabulated magic multiplier hashes the blocker subsets of the occupancy
mask onto all of `[0, 2 ^ shift)` without collision. -/
theorem magic_certificate : magicAllOk = true := by decide

/-- The certificate specialised to one square and kind. -/
theorem magicSquareOk_of_lt (k : MagicKind) (s : Nat) (hs : s < 64) :
    magicSquareOk k s = true := by
  have h := magic_certificate
  simp only [magicAllOk, List.all_eq_true] at h
  have hk := h s (List.mem_range.2 hs)
  rw [Bool.and_eq_true] at hk
  cases k
  · exact hk.1
  · exact hk.2

/-- A perfect hash onto `[0, 2 ^ shift)` from a list of `2 ^ shift` subsets
is injective on those subsets: a counting argument over the image. -/
theorem hash_injOn (magic shift : Nat) (bits : List Nat)
    (hlen : bits.length = shift) (hshift : shift ≤ 64)
    (hsurj : idxUnion magic shift bits 0 = 2 ^ 2 ^ shift - 1) :
    ∀ x ∈ subsetsOf bits, ∀ y ∈ subsetsOf bits,
      magicIdx x magic shift = magicIdx y magic shift → x = y := by
  classical
  set S : Finset Nat := (subsetsOf bits).toFinset with hS
  have hcard_le : S.card ≤ 2 ^ shift := by
    calc S.card ≤ (subsetsOf bits).length := List.toFinset_card_le _
    _ = 2 ^ shift := by rw [subsetsOf_length, hlen]
  have himg : S.image (fun x => magicIdx x magic shift)
      = Finset.range (2 ^ shift) := by
    apply Finset.Subset.antisymm
    · intro i hi
      obtain ⟨x, hx, rfl⟩ := Finset.mem_image.1 hi
      exact Finset.mem_range.2 (magicIdx_lt _ _ _ hshift)
    · intro i hi
      have hib : (idxUnion magic shift bits 0).testBit i = true := by
        rw [hsurj, Nat.testBit_two_pow_sub_one]
        simpa using Finset.mem_range.1 hi
      obtain ⟨x, hx, he⟩ := idxUnion_testBit magic shift bits 0 i hib
      rw [Nat.zero_or] at he
      exact Finset.mem_image.2 ⟨x, List.mem_toFinset.2 hx, he⟩
  have hinj : Set.InjOn (fun x => magicIdx x magic shift) ↑S := by
    apply Finset.injOn_of_card_image_eq
    have h1 : 2 ^ shift ≤ S.card := by
      have h0 : (S.image (fun x => magicIdx x magic shift)).card ≤ S.card :=
        Finset.card_image_le
      rw [himg, Finset.card_range] at h0
      exact h0
    rw [himg, Finset.card_range]
    omega
  intro x hx y hy he
  exact hinj (Finset.mem_coe.2 (List.mem_toFinset.2 hx))
    (Finset.mem_coe.2 (List.mem_toFinset.2 hy)) he

/-- Every blocker configuration inside the occupancy mask is one of the
enumerated subsets of the mask's bit list. -/
theorem subset_mem_subsetsOf (mask B : Nat) (hmask : mask < 2 ^ 64)
    (hcomp : maskBitsComplete mask = true) (hB : B &&& mask = B) :
    B ∈ subsetsOf (bbPieces mask) := by
  apply mem_subsetsOf
  intro i hi
  have hmi : mask.testBit i = true := by
    have hAnd : (B &&& mask).testBit i = true := by rw [hB]; exact hi
    rw [Nat.testBit_and, Bool.and_eq_true] at hAnd
    exact hAnd.2
  have hlt : i < 64 := by
    by_contra hge
    rw [testBit_high mask i hmask (by omega)] at hmi
    exact absurd hmi (by simp)
  simp only [maskBitsComplete, List.all_eq_true] at hcomp
  have hc := hcomp i (List.mem_range.2 hlt)
  rw [Bool.or_eq_true, Bool.not_eq_true'] at hc
  rcases hc with hfalse | hcontains
  · rw [hmi] at hfalse
    exact absurd hfalse (by simp)
  · simpa using hcontains

/-- C4: for every square, both sliding kinds and every blocker subset of
the square's occupancy mask, the magic table lookup returns exactly the
naive ray-walk attack set (on each ray the first blocker is included and
squares past it excluded — that is what `rayAttacks` computes via the
`calc_*_rays_moves` walks).  The proof runs through the checked
certificate: the magic multiplier hashes the mask's `2 ^ shift` subsets
bijectively onto the table indices, so the table write for `B` is read
back unclobbered. -/
theorem magic_lookup_correct (k : MagicKind) (s B : Nat) (hs : s < 64)
    (hB : B &&& occMask k s = B) :
    magicLookup k s B = rayAttacks k s B := by
  obtain ⟨F1, F2, F3, F4, F5⟩ := magicSquareOk_spec k s (magicSquareOk_of_lt k s hs)
  have hmem : B ∈ subsetsOf (bbPieces (occMask k s)) :=
    subset_mem_subsetsOf _ _ F1 F2 hB
  have hinj := hash_injOn ((magicsOf k).getD s 0) ((shiftsOf k).getD s 0)
    (bbPieces (occMask k s)) F3 F4 F5
  simp only [magicLookup, magicTable, hB]
  exact foldl_insert_find
    (fun x => magicIdx x ((magicsOf k).getD s 0) ((shiftsOf k).getD s 0))
    (fun x => rayAttacks k s x) ((shiftsOf k).getD s 0)
    (subsetsOf (bbPieces (occMask k s))) BTrie.nil B hmem
    (fun x hx => magicIdx_lt _ _ _ F4)
    (fun x hx he => by rw [hinj x hx B hmem he])

/-- Witness for C4: the bishop on a1 against a lone blocker on b2 — the
table lookup agrees with the ray walk, which stops at b2. -/
theorem magic_lookup_correct_witness :
    magicLookup .bishop 0 (1 <<< 9) = rayAttacks .bishop 0 (1 <<< 9) :=
  magic_lookup_correct .bishop 0 (1 <<< 9) (by decide) (by decide)

end Rmace
